import Mathlib

/-!
Verification of the text-diff-and-highlight engine of the GSC-Analyzer
repository (src/lib/diffUtils.ts, first variant), of its content-state
managers (components/PageContent.tsx and the unnamed near-duplicate copy),
and of the query-occurrence counter (pages/Analyze.tsx).

JavaScript strings are modelled as List Char; JavaScript numbers occurring
here are all non-negative integers and are modelled as Nat.
-/

set_option maxHeartbeats 1000000

namespace GSC

/-- Model of the JavaScript regular-expression class \s (the whitespace
characters recognised by the tokenizer's pattern), by code point. -/
def jsWhitespace (c : Char) : Bool :=
  let n := c.toNat
  (Nat.ble 9 n && Nat.ble n 13) || n == 32 || n == 160 || n == 5760 ||
    (Nat.ble 8192 n && Nat.ble n 8202) || n == 8232 || n == 8233 ||
    n == 8239 || n == 8287 || n == 12288 || n == 65279

/-- A token produced by tokenize in diffUtils.ts: the matched text together
with the character offset of its first character (match.index). -/
structure Token where
  text : List Char
  index : Nat
deriving DecidableEq, Repr

/-- One step of the regex loop of tokenize: the pattern (\s+|[^\s]+) matches,
at the current position, the maximal run of characters that agree with the
first character on membership in \s.  The first argument is fuel (the loop
consumes at least one character per iteration, so the length of the input is
enough fuel); it exists only to make the recursion structural. -/
def tokenizeAux : Nat → Nat → List Char → List Token
  | 0, _, _ => []
  | _ + 1, _, [] => []
  | fuel + 1, idx, c :: rest =>
      let run := c :: rest.takeWhile (fun d => jsWhitespace d == jsWhitespace c)
      ⟨run, idx⟩ ::
        tokenizeAux fuel (idx + run.length)
          (rest.dropWhile (fun d => jsWhitespace d == jsWhitespace c))

/-- tokenize from diffUtils.ts: repeatedly match (\s+|[^\s]+) against the
text, recording each match and its start offset. -/
def tokenize (s : List Char) : List Token :=
  tokenizeAux s.length 0 s

/-- Concatenation of the text fields of a token list, in order. -/
def concatTexts (ts : List Token) : List Char :=
  ts.foldr (fun t acc => t.text ++ acc) []

/-- The indices of a token list are the cumulative text lengths starting
from n (this is what match.index of a partitioning scan produces). -/
def indicesFrom (n : Nat) : List Token → Prop
  | [] => True
  | t :: ts => t.index = n ∧ indicesFrom (n + t.text.length) ts

theorem concatTexts_nil : concatTexts [] = [] := rfl

theorem concatTexts_cons (t : Token) (ts : List Token) :
    concatTexts (t :: ts) = t.text ++ concatTexts ts := rfl

theorem length_dropWhile_le' (p : α → Bool) (l : List α) :
    (l.dropWhile p).length ≤ l.length := by
  induction l with
  | nil => simp [List.dropWhile]
  | cons a l ih =>
      by_cases h : p a
      · simpa [List.dropWhile, h] using Nat.le_succ_of_le ih
      · simp [List.dropWhile, h]

theorem tokenizeAux_fuel {fuel fuel' : Nat} {idx : Nat} {s : List Char}
    (h : s.length ≤ fuel) (h' : s.length ≤ fuel') :
    tokenizeAux fuel idx s = tokenizeAux fuel' idx s := by
  induction fuel generalizing fuel' idx s with
  | zero =>
      have : s = [] := List.length_eq_zero.mp (Nat.le_zero.mp h)
      subst this
      cases fuel' with
      | zero => rfl
      | succ n => rfl
  | succ fuel ih =>
      cases s with
      | nil =>
          cases fuel' with
          | zero => rfl
          | succ n => rfl
      | cons c rest =>
          cases fuel' with
          | zero => exact absurd h' (by simp)
          | succ n =>
              simp only [tokenizeAux]
              have hlen : (rest.dropWhile
                  (fun d => jsWhitespace d == jsWhitespace c)).length ≤ fuel := by
                have := length_dropWhile_le'
                  (fun d => jsWhitespace d == jsWhitespace c) rest
                have hr : rest.length ≤ fuel := by
                  simpa using Nat.le_of_succ_le_succ h
                exact le_trans this hr
              have hlen' : (rest.dropWhile
                  (fun d => jsWhitespace d == jsWhitespace c)).length ≤ n := by
                have := length_dropWhile_le'
                  (fun d => jsWhitespace d == jsWhitespace c) rest
                have hr : rest.length ≤ n := by
                  simpa using Nat.le_of_succ_le_succ h'
                exact le_trans this hr
              rw [ih hlen hlen']

theorem tokenize_nil : tokenize [] = [] := rfl

theorem tokenize_cons (c : Char) (rest : List Char) :
    tokenize (c :: rest) =
      ⟨c :: rest.takeWhile (fun d => jsWhitespace d == jsWhitespace c), 0⟩ ::
        tokenizeAux (rest.length) (0 + (c :: rest.takeWhile
            (fun d => jsWhitespace d == jsWhitespace c)).length)
          (rest.dropWhile (fun d => jsWhitespace d == jsWhitespace c)) := by
  simp only [tokenize, List.length_cons, tokenizeAux]

theorem tokenizeAux_concat {fuel : Nat} {idx : Nat} {s : List Char}
    (h : s.length ≤ fuel) :
    concatTexts (tokenizeAux fuel idx s) = s := by
  induction fuel generalizing idx s with
  | zero =>
      have : s = [] := List.length_eq_zero.mp (Nat.le_zero.mp h)
      subst this
      rfl
  | succ fuel ih =>
      cases s with
      | nil => rfl
      | cons c rest =>
          simp only [tokenizeAux, concatTexts_cons]
          rw [ih]
          · simp [List.takeWhile_append_dropWhile]
          · have := length_dropWhile_le'
              (fun d => jsWhitespace d == jsWhitespace c) rest
            have hr : rest.length ≤ fuel := by
              simpa using Nat.le_of_succ_le_succ h
            exact le_trans this hr

/-- Tokenize partitions its input: concatenating the token texts in order
reproduces the input exactly. -/
theorem tokenize_concat (s : List Char) : concatTexts (tokenize s) = s :=
  tokenizeAux_concat (Nat.le_refl _)

theorem tokenizeAux_indices {fuel : Nat} {idx : Nat} {s : List Char}
    (h : s.length ≤ fuel) :
    indicesFrom idx (tokenizeAux fuel idx s) := by
  induction fuel generalizing idx s with
  | zero =>
      have : s = [] := List.length_eq_zero.mp (Nat.le_zero.mp h)
      subst this
      trivial
  | succ fuel ih =>
      cases s with
      | nil => trivial
      | cons c rest =>
          refine ⟨rfl, ?_⟩
          apply ih
          have := length_dropWhile_le'
            (fun d => jsWhitespace d == jsWhitespace c) rest
          have hr : rest.length ≤ fuel := by
            simpa using Nat.le_of_succ_le_succ h
          exact le_trans this hr

/-- The token indices recorded by tokenize are the cumulative lengths of the
preceding token texts, starting at zero. -/
theorem tokenize_indices (s : List Char) : indicesFrom 0 (tokenize s) :=
  tokenizeAux_indices (Nat.le_refl _)

theorem tokenizeAux_mem {fuel : Nat} {idx : Nat} {s : List Char}
    (h : s.length ≤ fuel) {t : Token} (ht : t ∈ tokenizeAux fuel idx s) :
    t.text ≠ [] ∧ ∃ b : Bool, ∀ c ∈ t.text, jsWhitespace c = b := by
  induction fuel generalizing idx s with
  | zero =>
      have : s = [] := List.length_eq_zero.mp (Nat.le_zero.mp h)
      subst this
      simp [tokenizeAux] at ht
  | succ fuel ih =>
      cases s with
      | nil => simp [tokenizeAux] at ht
      | cons c rest =>
          simp only [tokenizeAux, List.mem_cons] at ht
          rcases ht with ht | ht
          · subst ht
            refine ⟨by simp, jsWhitespace c, ?_⟩
            intro d hd
            simp only [List.mem_cons] at hd
            rcases hd with hd | hd
            · subst hd; rfl
            · have := List.mem_takeWhile_imp hd
              simpa using this
          · apply ih ?_ ht
            have := length_dropWhile_le'
              (fun d => jsWhitespace d == jsWhitespace c) rest
            have hr : rest.length ≤ fuel := by
              simpa using Nat.le_of_succ_le_succ h
            exact le_trans this hr

/-- Each token is nonempty and uniform: all its characters are whitespace,
or all are non-whitespace. -/
theorem tokenize_uniform (s : List Char) {t : Token} (ht : t ∈ tokenize s) :
    t.text ≠ [] ∧ ∃ b : Bool, ∀ c ∈ t.text, jsWhitespace c = b :=
  tokenizeAux_mem (Nat.le_refl _) ht

/-- The whitespace class of a token (class of its first character). -/
def tokenClass (t : Token) : Bool :=
  jsWhitespace (t.text.headD ' ')

theorem head_dropWhile_not (p : α → Bool) :
    ∀ (l : List α) {x : α} {xs : List α}, l.dropWhile p = x :: xs → p x = false := by
  intro l
  induction l with
  | nil => intro x xs h; simp [List.dropWhile] at h
  | cons a l ih =>
      intro x xs h
      by_cases ha : p a
      · rw [List.dropWhile_cons_of_pos ha] at h
        exact ih h
      · rw [List.dropWhile_cons_of_neg ha] at h
        cases h
        simpa using ha

theorem tokenizeAux_alternates {fuel : Nat} {idx : Nat} {s : List Char}
    (h : s.length ≤ fuel) :
    List.Chain' (fun t₁ t₂ => tokenClass t₁ ≠ tokenClass t₂)
      (tokenizeAux fuel idx s) := by
  induction fuel generalizing idx s with
  | zero =>
      have : s = [] := List.length_eq_zero.mp (Nat.le_zero.mp h)
      subst this
      simp [tokenizeAux]
  | succ fuel ih =>
      cases s with
      | nil => simp [tokenizeAux]
      | cons c rest =>
          simp only [tokenizeAux]
          have hfuel : (rest.dropWhile
              (fun d => jsWhitespace d == jsWhitespace c)).length ≤ fuel := by
            have := length_dropWhile_le'
              (fun d => jsWhitespace d == jsWhitespace c) rest
            have hr : rest.length ≤ fuel := by
              simpa using Nat.le_of_succ_le_succ h
            exact le_trans this hr
          refine List.chain'_cons'.mpr ⟨?_, ih hfuel⟩
          intro t ht
          cases hdrop : rest.dropWhile (fun d => jsWhitespace d == jsWhitespace c) with
          | nil =>
              rw [hdrop] at ht
              cases fuel with
              | zero => simp [tokenizeAux] at ht
              | succ n => simp [tokenizeAux] at ht
          | cons x xs =>
              rw [hdrop] at ht
              have hx : (jsWhitespace x == jsWhitespace c) = false :=
                head_dropWhile_not _ rest hdrop
              cases fuel with
              | zero => simp [tokenizeAux] at ht
              | succ n =>
                  simp only [tokenizeAux, List.head?_cons, Option.mem_def,
                    Option.some.injEq] at ht
                  subst ht
                  simp only [tokenClass, List.headD_cons, ne_eq]
                  intro hcx
                  rw [hcx] at hx
                  simp at hx

/-- Consecutive tokens have different whitespace classes, which together
with uniformity makes every token a maximal run. -/
theorem tokenize_alternates (s : List Char) :
    List.Chain' (fun t₁ t₂ => tokenClass t₁ ≠ tokenClass t₂) (tokenize s) :=
  tokenizeAux_alternates (Nat.le_refl _)

theorem indicesFrom_offset {ts : List Token} :
    ∀ {n : Nat} {u : List Char}, indicesFrom n ts → concatTexts ts = u →
      ∀ t ∈ ts, (u.drop (t.index - n)).take t.text.length = t.text := by
  induction ts with
  | nil => intro n u _ _ t ht; simp at ht
  | cons s ts ih =>
      intro n u hind hcat t ht
      obtain ⟨hidx, hind'⟩ := hind
      rcases List.mem_cons.mp ht with h | h
      · subst h
        rw [hidx, Nat.sub_self, ← hcat, concatTexts_cons, List.drop_zero]
        exact List.take_left' rfl
      · have hge : ∀ t' ∈ ts, n + s.text.length ≤ t'.index := by
          clear ih hcat ht h
          have : ∀ (l : List Token) (m : Nat), indicesFrom m l →
              ∀ t' ∈ l, m ≤ t'.index := by
            intro l
            induction l with
            | nil => intro m _ t' ht'; simp at ht'
            | cons a l ihl =>
                intro m hm t' ht'
                obtain ⟨ha, hl⟩ := hm
                rcases List.mem_cons.mp ht' with h' | h'
                · subst h'; omega
                · have := ihl _ hl t' h'
                  omega
          exact this ts _ hind'
        have hge' : n + s.text.length ≤ t.index := hge t h
        have harith : t.index - n = s.text.length + (t.index - (n + s.text.length)) := by
          omega
        rw [← hcat, concatTexts_cons, harith]
        rw [← List.drop_drop]
        rw [List.drop_left]
        exact ih hind' rfl t h

/-- C7 — Tokenizer partition: for every string A (the empty string yielding
the empty token list), the token texts concatenate back to A exactly; every
token is a nonempty uniform run (all whitespace or all non-whitespace);
consecutive tokens differ in class (so each run is maximal); the recorded
index of each token is the cumulative length of the preceding tokens, and
the text of A starting at that index is exactly the token's text. -/
theorem tokenize_partition (A : List Char) :
    concatTexts (tokenize A) = A ∧
    tokenize [] = [] ∧
    (∀ t ∈ tokenize A, t.text ≠ [] ∧ ∃ b : Bool, ∀ c ∈ t.text, jsWhitespace c = b) ∧
    List.Chain' (fun t₁ t₂ => tokenClass t₁ ≠ tokenClass t₂) (tokenize A) ∧
    indicesFrom 0 (tokenize A) ∧
    (∀ t ∈ tokenize A, (A.drop t.index).take t.text.length = t.text) := by
  refine ⟨tokenize_concat A, tokenize_nil, fun t ht => tokenize_uniform A ht,
    tokenize_alternates A, tokenize_indices A, ?_⟩
  intro t ht
  have := indicesFrom_offset (tokenize_indices A) (tokenize_concat A) t ht
  simpa using this

/-- Entry dp[i][j] of the LCS table built by findTextDifferences: the length
of the longest common subsequence (by token-text equality) of the suffixes.
The recursion is the table recurrence of diffUtils.ts:
dp[i][j] = dp[i+1][j+1] + 1 when texts agree, max(dp[i+1][j], dp[i][j+1])
otherwise.  The first argument is fuel making the recursion structural. -/
def lcsLenAux : Nat → List Token → List Token → Nat
  | 0, _, _ => 0
  | _ + 1, [], _ => 0
  | _ + 1, _ :: _, [] => 0
  | fuel + 1, a :: as, b :: bs =>
      if a.text = b.text then lcsLenAux fuel as bs + 1
      else max (lcsLenAux fuel as (b :: bs)) (lcsLenAux fuel (a :: as) bs)

/-- LCS length of two token suffix sequences (the dp table of the source). -/
def lcsLen (as bs : List Token) : Nat :=
  lcsLenAux (as.length + bs.length) as bs

theorem lcsLenAux_fuel {fuel fuel' : Nat} {as bs : List Token}
    (h : as.length + bs.length ≤ fuel) (h' : as.length + bs.length ≤ fuel') :
    lcsLenAux fuel as bs = lcsLenAux fuel' as bs := by
  induction fuel generalizing fuel' as bs with
  | zero =>
      have ha : as = [] := by
        cases as with
        | nil => rfl
        | cons x xs => simp at h
      subst ha
      cases fuel' with
      | zero => rfl
      | succ n => cases bs <;> rfl
  | succ fuel ih =>
      cases as with
      | nil =>
          cases fuel' with
          | zero => cases bs <;> rfl
          | succ n => rfl
      | cons a as =>
          cases bs with
          | nil =>
              cases fuel' with
              | zero => simp at h'
              | succ n => rfl
          | cons b bs =>
              cases fuel' with
              | zero => simp at h'
              | succ n =>
                  simp only [List.length_cons] at h h'
                  simp only [lcsLenAux]
                  rw [ih (by omega)
                      (by omega : as.length + bs.length ≤ n),
                    ih (by simp only [List.length_cons]; omega)
                      (by simp only [List.length_cons]; omega :
                        as.length + (b :: bs).length ≤ n),
                    ih (by simp only [List.length_cons]; omega)
                      (by simp only [List.length_cons]; omega :
                        (a :: as).length + bs.length ≤ n)]

theorem lcsLen_nil_left (bs : List Token) : lcsLen [] bs = 0 := by
  cases bs <;> rfl

theorem lcsLen_nil_right (as : List Token) : lcsLen as [] = 0 := by
  cases as <;> rfl

theorem lcsLen_cons_cons (a b : Token) (as bs : List Token) :
    lcsLen (a :: as) (b :: bs) =
      if a.text = b.text then lcsLen as bs + 1
      else max (lcsLen as (b :: bs)) (lcsLen (a :: as) bs) := by
  have e0 : lcsLen (a :: as) (b :: bs)
      = lcsLenAux (as.length + bs.length + 1 + 1) (a :: as) (b :: bs) :=
    lcsLenAux_fuel (by simp only [List.length_cons]; omega)
      (by simp only [List.length_cons]; omega)
  have e1 : lcsLenAux (as.length + bs.length + 1) as bs = lcsLen as bs :=
    lcsLenAux_fuel (by omega) (by omega)
  have e2 : lcsLenAux (as.length + bs.length + 1) as (b :: bs)
      = lcsLen as (b :: bs) :=
    lcsLenAux_fuel (by simp only [List.length_cons]; omega)
      (by simp only [List.length_cons]; omega)
  have e3 : lcsLenAux (as.length + bs.length + 1) (a :: as) bs
      = lcsLen (a :: as) bs :=
    lcsLenAux_fuel (by simp only [List.length_cons]; omega)
      (by simp only [List.length_cons]; omega)
  rw [e0]
  simp only [lcsLenAux]
  rw [e1, e2, e3]

/-- One operation of the forward walk over the LCS table: a matched token
pair (both cursors advance, no record emitted), a deleted old token, or an
inserted new token. -/
inductive Op where
  | keep (ta tb : Token)
  | del (t : Token)
  | ins (t : Token)
deriving DecidableEq, Repr

/-- The forward walk of findTextDifferences over the dp table: on equal
texts emit a match and advance both cursors; otherwise delete the old token
when dp[i+1][j] >= dp[i][j+1], else insert the new token; once one side is
exhausted, flush the remaining old tokens as deletions and then the
remaining new tokens as insertions.  Fuel makes the recursion structural. -/
def diffOpsAux : Nat → List Token → List Token → List Op
  | 0, _, _ => []
  | _ + 1, [], bs => bs.map Op.ins
  | _ + 1, a :: as, [] => (a :: as).map Op.del
  | fuel + 1, a :: as, b :: bs =>
      if a.text = b.text then Op.keep a b :: diffOpsAux fuel as bs
      else if lcsLen (a :: as) bs ≤ lcsLen as (b :: bs) then
        Op.del a :: diffOpsAux fuel as (b :: bs)
      else
        Op.ins b :: diffOpsAux fuel (a :: as) bs

/-- The operation stream of the aligner on two token sequences. -/
def diffOps (as bs : List Token) : List Op :=
  diffOpsAux (as.length + bs.length) as bs

theorem diffOpsAux_fuel {fuel fuel' : Nat} {as bs : List Token}
    (h : as.length + bs.length ≤ fuel) (h' : as.length + bs.length ≤ fuel') :
    diffOpsAux fuel as bs = diffOpsAux fuel' as bs := by
  induction fuel generalizing fuel' as bs with
  | zero =>
      have ha : as = [] := by
        cases as with
        | nil => rfl
        | cons x xs => simp at h
      have hb : bs = [] := by
        cases bs with
        | nil => rfl
        | cons x xs => subst ha; simp at h
      subst ha; subst hb
      cases fuel' with
      | zero => rfl
      | succ n => rfl
  | succ fuel ih =>
      cases as with
      | nil =>
          cases fuel' with
          | zero =>
              have : bs = [] := by
                cases bs with
                | nil => rfl
                | cons x xs => simp at h'
              subst this; rfl
          | succ n => rfl
      | cons a as =>
          cases bs with
          | nil =>
              cases fuel' with
              | zero => simp at h'
              | succ n => rfl
          | cons b bs =>
              cases fuel' with
              | zero => simp at h'
              | succ n =>
                  simp only [List.length_cons] at h h'
                  simp only [diffOpsAux]
                  rw [ih (by omega)
                      (by omega : as.length + bs.length ≤ n),
                    ih (by simp only [List.length_cons]; omega)
                      (by simp only [List.length_cons]; omega :
                        as.length + (b :: bs).length ≤ n),
                    ih (by simp only [List.length_cons]; omega)
                      (by simp only [List.length_cons]; omega :
                        (a :: as).length + bs.length ≤ n)]

theorem diffOps_nil_left (bs : List Token) : diffOps [] bs = bs.map Op.ins := by
  cases bs <;> rfl

theorem diffOps_nil_right (as : List Token) :
    diffOps as [] = as.map Op.del := by
  cases as <;> rfl

theorem diffOps_cons_cons (a b : Token) (as bs : List Token) :
    diffOps (a :: as) (b :: bs) =
      if a.text = b.text then Op.keep a b :: diffOps as bs
      else if lcsLen (a :: as) bs ≤ lcsLen as (b :: bs) then
        Op.del a :: diffOps as (b :: bs)
      else
        Op.ins b :: diffOps (a :: as) bs := by
  have e0 : diffOps (a :: as) (b :: bs)
      = diffOpsAux (as.length + bs.length + 1 + 1) (a :: as) (b :: bs) :=
    diffOpsAux_fuel (by simp only [List.length_cons]; omega)
      (by simp only [List.length_cons]; omega)
  have e1 : diffOpsAux (as.length + bs.length + 1) as bs = diffOps as bs :=
    diffOpsAux_fuel (by omega) (by omega)
  have e2 : diffOpsAux (as.length + bs.length + 1) as (b :: bs)
      = diffOps as (b :: bs) :=
    diffOpsAux_fuel (by simp only [List.length_cons]; omega)
      (by simp only [List.length_cons]; omega)
  have e3 : diffOpsAux (as.length + bs.length + 1) (a :: as) bs
      = diffOps (a :: as) bs :=
    diffOpsAux_fuel (by simp only [List.length_cons]; omega)
      (by simp only [List.length_cons]; omega)
  rw [e0]
  simp only [diffOpsAux]
  rw [e1, e2, e3]

/-- The two kinds of TextChange records of diffUtils.ts. -/
inductive ChangeType where
  | insertion
  | deletion
deriving DecidableEq, Repr

/-- The TextChange record of diffUtils.ts.  Optional fields that are absent
in JavaScript are modelled by none / false defaults.  The replacementGroup
string replace-N of the source is modelled by its numeric id N (the
formatting N ↦ replace-N is injective bookkeeping). -/
structure TextChange where
  type : ChangeType
  text : List Char
  position : Nat
  originalPosition : Option Nat := none
  isGrouped : Bool := false
  isReplacement : Bool := false
  replacementGroup : Option Nat := none
deriving DecidableEq, Repr

/-- The record emitted by the walk for one operation: deletions carry
position and originalPosition (both the old token's index), insertions
carry the new token's index; matches emit nothing. -/
def opToChange : Op → Option TextChange
  | Op.keep _ _ => none
  | Op.del t => some
      { type := ChangeType.deletion, text := t.text, position := t.index,
        originalPosition := some t.index }
  | Op.ins t => some
      { type := ChangeType.insertion, text := t.text, position := t.index }

/-- Marking applied to both members of a replacement pair, with the fresh
group id. -/
def markReplacement (c : TextChange) (rid : Nat) : TextChange :=
  { c with
    isGrouped := true, isReplacement := true, replacementGroup := some rid }

/-- The post-pass of findTextDifferences: scan the change list; whenever a
deletion is immediately followed by an insertion whose positions are within
one character (abs((cur.originalPosition ?? cur.position) - next.position)
<= 1), mark both with the same fresh replacement group and skip the pair;
otherwise emit the current record unchanged and advance by one. -/
def groupReplacements : List TextChange → Nat → List TextChange
  | c1 :: c2 :: rest, rid =>
      if c1.type = ChangeType.deletion ∧ c2.type = ChangeType.insertion ∧
          Nat.dist (c1.originalPosition.getD c1.position) c2.position ≤ 1
      then markReplacement c1 rid :: markReplacement c2 rid ::
        groupReplacements rest (rid + 1)
      else c1 :: groupReplacements (c2 :: rest) rid
  | cs, _ => cs

/-- findTextDifferences of diffUtils.ts (first variant): short-circuit on
equal inputs, tokenize both texts, run the LCS walk, convert the operation
stream to TextChange records, then run the replacement-grouping post-pass
with group ids starting at 0. -/
def findTextDifferences (originalText editedText : List Char) :
    List TextChange :=
  if originalText = editedText then []
  else
    groupReplacements
      ((diffOps (tokenize originalText) (tokenize editedText)).filterMap
        opToChange) 0

/-- The texts of a token sequence, in order. -/
def textsOf (ts : List Token) : List (List Char) :=
  ts.map Token.text

/-- Texts of the old-side tokens of the matched pairs of an operation
stream (the tokens for which no record is emitted). -/
def opKeepsA (ops : List Op) : List (List Char) :=
  ops.filterMap fun o =>
    match o with
    | Op.keep ta _ => some ta.text
    | _ => none

/-- Texts of the new-side tokens of the matched pairs. -/
def opKeepsB (ops : List Op) : List (List Char) :=
  ops.filterMap fun o =>
    match o with
    | Op.keep _ tb => some tb.text
    | _ => none

theorem opKeepsA_map_ins (bs : List Token) :
    opKeepsA (bs.map Op.ins) = [] := by
  induction bs with
  | nil => rfl
  | cons b bs ih => simpa [opKeepsA, List.filterMap_cons] using ih

theorem opKeepsA_map_del (as : List Token) :
    opKeepsA (as.map Op.del) = [] := by
  induction as with
  | nil => rfl
  | cons a as ih => simpa [opKeepsA, List.filterMap_cons] using ih

theorem opKeepsB_map_ins (bs : List Token) :
    opKeepsB (bs.map Op.ins) = [] := by
  induction bs with
  | nil => rfl
  | cons b bs ih => simpa [opKeepsB, List.filterMap_cons] using ih

theorem opKeepsB_map_del (as : List Token) :
    opKeepsB (as.map Op.del) = [] := by
  induction as with
  | nil => rfl
  | cons a as ih => simpa [opKeepsB, List.filterMap_cons] using ih

theorem sublist_of_cons_sublist_cons {x y : α} {c l : List α}
    (h : List.Sublist (x :: c) (y :: l)) : List.Sublist c l := by
  cases h with
  | cons _ h => exact ((List.Sublist.cons x (List.Sublist.refl c)).trans h)
  | cons₂ _ h => exact h

theorem sublist_cons_elim {x y : α} {c l : List α}
    (h : List.Sublist (x :: c) (y :: l)) :
    List.Sublist (x :: c) l ∨ (x = y ∧ List.Sublist c l) := by
  cases h with
  | cons _ h => exact Or.inl h
  | cons₂ _ h => exact Or.inr ⟨rfl, h⟩

/-- Any common subsequence (by text) of the two token sequences is at most
as long as the dp value: the table really computes a maximum. -/
theorem lcsLen_is_ub :
    ∀ (as : List Token) (bs : List Token) (c : List (List Char)),
      List.Sublist c (textsOf as) → List.Sublist c (textsOf bs) → c.length ≤ lcsLen as bs := by
  intro as
  induction as with
  | nil =>
      intro bs c hca hcb
      have : c = [] := List.sublist_nil.mp hca
      subst this
      simp
  | cons a as ihA =>
      intro bs
      induction bs with
      | nil =>
          intro c hca hcb
          have : c = [] := List.sublist_nil.mp hcb
          subst this
          simp
      | cons b bs ihB =>
          intro c hca hcb
          rw [lcsLen_cons_cons]
          by_cases htext : a.text = b.text
          · simp only [htext, if_true]
            cases c with
            | nil => simp
            | cons x c' =>
                have hta : List.Sublist c' (textsOf as) :=
                  sublist_of_cons_sublist_cons (by simpa [textsOf] using hca)
                have htb : List.Sublist c' (textsOf bs) :=
                  sublist_of_cons_sublist_cons (by simpa [textsOf] using hcb)
                have := ihA bs c' hta htb
                simpa using Nat.succ_le_succ this
          · simp only [htext, if_false]
            cases c with
            | nil => simp
            | cons x c' =>
                have hca' : List.Sublist (x :: c') (a.text :: textsOf as) := by
                  simpa [textsOf] using hca
                have hcb' : List.Sublist (x :: c') (b.text :: textsOf bs) := by
                  simpa [textsOf] using hcb
                rcases sublist_cons_elim hca' with h | ⟨hx, h⟩
                · have := ihA (b :: bs) (x :: c') h hcb
                  exact le_trans this (le_max_left _ _)
                · rcases sublist_cons_elim hcb' with h' | ⟨hx', h'⟩
                  · have := ihB (x :: c') hca h'
                    exact le_trans this (le_max_right _ _)
                  · exact absurd (hx.symm.trans hx') htext

/-- Structure of the matched pairs of the walk: the old-side matched texts
are a subsequence of the old texts, the new-side ones of the new texts,
the two sides agree, and the number of matched pairs equals the dp value
(so the walk realises an optimal alignment). -/
theorem diffOps_keeps :
    ∀ (as : List Token) (bs : List Token),
      List.Sublist (opKeepsA (diffOps as bs)) (textsOf as) ∧
      List.Sublist (opKeepsB (diffOps as bs)) (textsOf bs) ∧
      opKeepsA (diffOps as bs) = opKeepsB (diffOps as bs) ∧
      (opKeepsA (diffOps as bs)).length = lcsLen as bs := by
  intro as
  induction as with
  | nil =>
      intro bs
      rw [diffOps_nil_left, lcsLen_nil_left]
      simp [opKeepsA_map_ins, opKeepsB_map_ins]
  | cons a as ihA =>
      intro bs
      induction bs with
      | nil =>
          rw [diffOps_nil_right, lcsLen_nil_right]
          refine ⟨?_, ?_, ?_, ?_⟩
          · rw [opKeepsA_map_del]; exact List.nil_sublist _
          · rw [opKeepsB_map_del]; exact List.nil_sublist _
          · rw [opKeepsA_map_del, opKeepsB_map_del]
          · rw [opKeepsA_map_del]; rfl
      | cons b bs ihB =>
          rw [diffOps_cons_cons, lcsLen_cons_cons]
          by_cases htext : a.text = b.text
          · obtain ⟨h1, h2, h3, h4⟩ := ihA bs
            simp only [htext, if_true]
            refine ⟨?_, ?_, ?_, ?_⟩
            · simpa [opKeepsA, List.filterMap_cons, textsOf] using
                List.Sublist.cons₂ a.text h1
            · simpa [opKeepsB, List.filterMap_cons, textsOf] using
                List.Sublist.cons₂ b.text h2
            · simpa [opKeepsA, opKeepsB, List.filterMap_cons, htext] using h3
            · simpa [opKeepsA, List.filterMap_cons] using congrArg Nat.succ h4
          · simp only [htext, if_false]
            by_cases hcond : lcsLen (a :: as) bs ≤ lcsLen as (b :: bs)
            · obtain ⟨h1, h2, h3, h4⟩ := ihA (b :: bs)
              simp only [hcond, if_true]
              refine ⟨?_, ?_, ?_, ?_⟩
              · simpa [opKeepsA, List.filterMap_cons, textsOf] using
                  List.Sublist.cons a.text h1
              · simpa [opKeepsB, List.filterMap_cons] using h2
              · simpa [opKeepsA, opKeepsB, List.filterMap_cons] using h3
              · rw [Nat.max_eq_left hcond]
                simpa [opKeepsA, List.filterMap_cons] using h4
            · obtain ⟨h1, h2, h3, h4⟩ := ihB
              simp only [hcond, if_false]
              refine ⟨?_, ?_, ?_, ?_⟩
              · simpa [opKeepsA, List.filterMap_cons] using h1
              · simpa [opKeepsB, List.filterMap_cons, textsOf] using
                  List.Sublist.cons b.text h2
              · simpa [opKeepsA, opKeepsB, List.filterMap_cons] using h3
              · rw [Nat.max_eq_right (Nat.le_of_lt (Nat.lt_of_not_le hcond))]
                simpa [opKeepsA, List.filterMap_cons] using h4

theorem lcsLen_le_left (as bs : List Token) : lcsLen as bs ≤ as.length := by
  obtain ⟨h1, _, _, h4⟩ := diffOps_keeps as bs
  have := h1.length_le
  rw [h4] at this
  simpa [textsOf] using this

theorem lcsLen_le_right (as bs : List Token) : lcsLen as bs ≤ bs.length := by
  obtain ⟨_, h2, h3, h4⟩ := diffOps_keeps as bs
  have := h2.length_le
  rw [← h3, h4] at this
  simpa [textsOf] using this

/-- Number of delete operations in a stream. -/
def delOpCount (ops : List Op) : Nat :=
  ops.countP fun o =>
    match o with
    | Op.del _ => true
    | _ => false

/-- Number of insert operations in a stream. -/
def insOpCount (ops : List Op) : Nat :=
  ops.countP fun o =>
    match o with
    | Op.ins _ => true
    | _ => false

theorem delOpCount_map_ins (bs : List Token) :
    delOpCount (bs.map Op.ins) = 0 := by
  induction bs with
  | nil => rfl
  | cons b bs ih => simpa [delOpCount, List.countP_cons] using ih

theorem delOpCount_map_del (as : List Token) :
    delOpCount (as.map Op.del) = as.length := by
  induction as with
  | nil => rfl
  | cons a as ih => simp [delOpCount, List.countP_cons] at ih ⊢

theorem insOpCount_map_ins (bs : List Token) :
    insOpCount (bs.map Op.ins) = bs.length := by
  induction bs with
  | nil => rfl
  | cons b bs ih => simp [insOpCount, List.countP_cons] at ih ⊢

theorem insOpCount_map_del (as : List Token) :
    insOpCount (as.map Op.del) = 0 := by
  induction as with
  | nil => rfl
  | cons a as ih => simpa [insOpCount, List.countP_cons] using ih

/-- The walk emits exactly n - L deletions and m - L insertions. -/
theorem diffOps_counts :
    ∀ (as : List Token) (bs : List Token),
      delOpCount (diffOps as bs) = as.length - lcsLen as bs ∧
      insOpCount (diffOps as bs) = bs.length - lcsLen as bs := by
  intro as
  induction as with
  | nil =>
      intro bs
      rw [diffOps_nil_left, lcsLen_nil_left]
      simp [delOpCount_map_ins, insOpCount_map_ins]
  | cons a as ihA =>
      intro bs
      induction bs with
      | nil =>
          rw [diffOps_nil_right, lcsLen_nil_right]
          refine ⟨?_, ?_⟩
          · rw [delOpCount_map_del]; omega
          · rw [insOpCount_map_del]; rfl
      | cons b bs ihB =>
          rw [diffOps_cons_cons, lcsLen_cons_cons]
          by_cases htext : a.text = b.text
          · obtain ⟨h1, h2⟩ := ihA bs
            have hL1 := lcsLen_le_left as bs
            have hL2 := lcsLen_le_right as bs
            simp only [htext, if_true]
            constructor
            · simp [delOpCount, List.countP_cons] at h1 ⊢; omega
            · simp [insOpCount, List.countP_cons] at h2 ⊢; omega
          · simp only [htext, if_false]
            by_cases hcond : lcsLen (a :: as) bs ≤ lcsLen as (b :: bs)
            · obtain ⟨h1, h2⟩ := ihA (b :: bs)
              have hL1 := lcsLen_le_left as (b :: bs)
              have hL2 := lcsLen_le_right as (b :: bs)
              simp only [hcond, if_true, Nat.max_eq_left hcond]
              constructor
              · simp [delOpCount, List.countP_cons] at h1 ⊢; omega
              · simp [insOpCount, List.countP_cons] at h2 ⊢
                simp [List.length_cons] at hL2 ⊢
                omega
            · obtain ⟨h1, h2⟩ := ihB
              have hL1 := lcsLen_le_left (a :: as) bs
              have hL2 := lcsLen_le_right (a :: as) bs
              have hmax : max (lcsLen as (b :: bs)) (lcsLen (a :: as) bs)
                  = lcsLen (a :: as) bs :=
                Nat.max_eq_right (Nat.le_of_lt (Nat.lt_of_not_le hcond))
              rw [hmax]
              simp only [hcond, if_false]
              constructor
              · simp [delOpCount, List.countP_cons] at h1 ⊢
                simp [List.length_cons] at hL1 ⊢
                omega
              · simp [insOpCount, List.countP_cons] at h2 ⊢; omega

/-- The fields of a change that the post-pass never alters. -/
def core (c : TextChange) : ChangeType × List Char × Nat × Option Nat :=
  (c.type, c.text, c.position, c.originalPosition)

theorem core_markReplacement (c : TextChange) (rid : Nat) :
    core (markReplacement c rid) = core c := rfl

theorem groupReplacements_countP (p : TextChange → Bool)
    (hp : ∀ c rid, p (markReplacement c rid) = p c) :
    ∀ (n : Nat) (cs : List TextChange), cs.length ≤ n → ∀ rid,
      (groupReplacements cs rid).countP p = cs.countP p := by
  intro n
  induction n with
  | zero =>
      intro cs hcs rid
      have : cs = [] := List.length_eq_zero.mp (Nat.le_zero.mp hcs)
      subst this
      rfl
  | succ n ih =>
      intro cs hcs rid
      match cs with
      | [] => rfl
      | [c] => rfl
      | c1 :: c2 :: rest =>
          simp only [groupReplacements]
          by_cases hq : c1.type = ChangeType.deletion ∧
              c2.type = ChangeType.insertion ∧
              Nat.dist (c1.originalPosition.getD c1.position) c2.position ≤ 1
          · simp only [hq, if_true]
            have hr : rest.length ≤ n := by
              simp only [List.length_cons] at hcs
              omega
            simp [List.countP_cons, ih rest hr (rid + 1), hp]
          · simp only [hq, if_false]
            have hr : (c2 :: rest).length ≤ n := by
              simp only [List.length_cons] at hcs ⊢
              omega
            simp [List.countP_cons, ih (c2 :: rest) hr rid]

theorem groupReplacements_filterMap {β : Type} (f : TextChange → Option β)
    (hf : ∀ c rid, f (markReplacement c rid) = f c) :
    ∀ (n : Nat) (cs : List TextChange), cs.length ≤ n → ∀ rid,
      (groupReplacements cs rid).filterMap f = cs.filterMap f := by
  intro n
  induction n with
  | zero =>
      intro cs hcs rid
      have : cs = [] := List.length_eq_zero.mp (Nat.le_zero.mp hcs)
      subst this
      rfl
  | succ n ih =>
      intro cs hcs rid
      match cs with
      | [] => rfl
      | [c] => rfl
      | c1 :: c2 :: rest =>
          simp only [groupReplacements]
          by_cases hq : c1.type = ChangeType.deletion ∧
              c2.type = ChangeType.insertion ∧
              Nat.dist (c1.originalPosition.getD c1.position) c2.position ≤ 1
          · simp only [hq, if_true]
            have hr : rest.length ≤ n := by
              simp only [List.length_cons] at hcs
              omega
            simp [List.filterMap_cons, ih rest hr (rid + 1), hf]
          · simp only [hq, if_false]
            have hr : (c2 :: rest).length ≤ n := by
              simp only [List.length_cons] at hcs ⊢
              omega
            simp [List.filterMap_cons, ih (c2 :: rest) hr rid]

theorem filterMap_opToChange_countDel (ops : List Op) :
    ((ops.filterMap opToChange).countP
        fun c => c.type == ChangeType.deletion) = delOpCount ops := by
  induction ops with
  | nil => rfl
  | cons o ops ih =>
      cases o <;>
        simp [opToChange, List.filterMap_cons, List.countP_cons, delOpCount,
          ih, delOpCount] <;>
        simp [delOpCount] at ih <;> omega

theorem filterMap_opToChange_countIns (ops : List Op) :
    ((ops.filterMap opToChange).countP
        fun c => c.type == ChangeType.insertion) = insOpCount ops := by
  induction ops with
  | nil => rfl
  | cons o ops ih =>
      cases o <;>
        simp [opToChange, List.filterMap_cons, List.countP_cons, insOpCount,
          ih, insOpCount] <;>
        simp [insOpCount] at ih <;> omega

/-- C2 — Aligner optimality: the texts of the token pairs that the walk of
findTextDifferences matches (the tokens for which no record is emitted) are
a common subsequence of the two token-text sequences of maximal length L,
and the change list returned by findTextDifferences contains exactly
n - L deletion records and m - L insertion records, where n and m are the
old and new token counts: no token-level diff has fewer operations. -/
theorem findTextDifferences_lcs_optimal (A B : List Char) :
    List.Sublist (opKeepsA (diffOps (tokenize A) (tokenize B)))
      (textsOf (tokenize A)) ∧
    List.Sublist (opKeepsA (diffOps (tokenize A) (tokenize B)))
      (textsOf (tokenize B)) ∧
    (opKeepsA (diffOps (tokenize A) (tokenize B))).length
      = lcsLen (tokenize A) (tokenize B) ∧
    (∀ c : List (List Char), List.Sublist c (textsOf (tokenize A)) →
      List.Sublist c (textsOf (tokenize B)) →
      c.length ≤ lcsLen (tokenize A) (tokenize B)) ∧
    ((findTextDifferences A B).countP
        fun c => c.type == ChangeType.deletion)
      = (tokenize A).length - lcsLen (tokenize A) (tokenize B) ∧
    ((findTextDifferences A B).countP
        fun c => c.type == ChangeType.insertion)
      = (tokenize B).length - lcsLen (tokenize A) (tokenize B) := by
  obtain ⟨h1, h2, h3, h4⟩ := diffOps_keeps (tokenize A) (tokenize B)
  refine ⟨h1, h3 ▸ h2, h4, fun c hca hcb => lcsLen_is_ub _ _ c hca hcb, ?_, ?_⟩
  · by_cases hAB : A = B
    · subst hAB
      have hub := lcsLen_le_left (tokenize A) (tokenize A)
      have hlb := lcsLen_is_ub (tokenize A) (tokenize A) (textsOf (tokenize A))
        (List.Sublist.refl _) (List.Sublist.refl _)
      simp only [textsOf, List.length_map] at hlb
      simp [findTextDifferences]
      omega
    · rw [findTextDifferences, if_neg hAB]
      rw [groupReplacements_countP (fun c => c.type == ChangeType.deletion)
        (fun c rid => rfl) _ _ (Nat.le_refl _) 0]
      rw [filterMap_opToChange_countDel]
      exact (diffOps_counts (tokenize A) (tokenize B)).1
  · by_cases hAB : A = B
    · subst hAB
      have hub := lcsLen_le_right (tokenize A) (tokenize A)
      have hlb := lcsLen_is_ub (tokenize A) (tokenize A) (textsOf (tokenize A))
        (List.Sublist.refl _) (List.Sublist.refl _)
      simp only [textsOf, List.length_map] at hlb
      simp [findTextDifferences]
      omega
    · rw [findTextDifferences, if_neg hAB]
      rw [groupReplacements_countP (fun c => c.type == ChangeType.insertion)
        (fun c rid => rfl) _ _ (Nat.le_refl _) 0]
      rw [filterMap_opToChange_countIns]
      exact (diffOps_counts (tokenize A) (tokenize B)).2

/-- Witness for C2: at a concrete pair of texts, the theorem's subsequence
bound instantiates to a concrete common subsequence. -/
theorem findTextDifferences_lcs_optimal_wit :
    ["the".data, " ".data].length
      ≤ lcsLen (tokenize "the cat sat".data) (tokenize "the dog sat".data) :=
  (findTextDifferences_lcs_optimal "the cat sat".data
    "the dog sat".data).2.2.2.1 ["the".data, " ".data] (by decide) (by decide)

/-- Splice text t into s at character offset pos. -/
def insertAt (s : List Char) (pos : Nat) (t : List Char) : List Char :=
  s.take pos ++ t ++ s.drop pos

/-- Remove len characters from s starting at character offset pos. -/
def removeAt (s : List Char) (pos len : Nat) : List Char :=
  s.take pos ++ s.drop (pos + len)

/-- The (position, text) pairs of the insertion records, in list order. -/
def insItems (cs : List TextChange) : List (Nat × List Char) :=
  cs.filterMap fun c =>
    if c.type = ChangeType.insertion then some (c.position, c.text) else none

/-- The (position, text) pairs of the deletion records, in list order; a
deletion's position is its originalPosition (falling back to position). -/
def delItems (cs : List TextChange) : List (Nat × List Char) :=
  cs.filterMap fun c =>
    if c.type = ChangeType.deletion then
      some (c.originalPosition.getD c.position, c.text)
    else none

/-- Splice a list of insertions into s, processed in list order, each at
its recorded absolute position in the final text. -/
def spliceIn (s : List Char) (items : List (Nat × List Char)) : List Char :=
  items.foldl (fun acc it => insertAt acc it.1 it.2) s

/-- Remove a list of (position, text) spans from s, processed in list
order; shift accumulates the lengths already removed, so each recorded
position is adjusted to an offset in the current string. -/
def spliceOut : List Char → Nat → List (Nat × List Char) → List Char
  | s, _, [] => s
  | s, shift, (p, t) :: rest =>
      spliceOut (removeAt s (p - shift) t.length) (shift + t.length) rest

/-- Old-side view of an operation stream: each old token, marked true when
it is deleted. -/
def sideA : List Op → List (Bool × Token)
  | [] => []
  | Op.keep ta _ :: r => (false, ta) :: sideA r
  | Op.del t :: r => (true, t) :: sideA r
  | Op.ins _ :: r => sideA r

/-- New-side view of an operation stream: each new token, marked true when
it is inserted. -/
def sideB : List Op → List (Bool × Token)
  | [] => []
  | Op.keep _ tb :: r => (false, tb) :: sideB r
  | Op.ins t :: r => (true, t) :: sideB r
  | Op.del _ :: r => sideB r

/-- Concatenation of all token texts of a marked list. -/
def allConcat (m : List (Bool × Token)) : List Char :=
  m.foldr (fun x acc => x.2.text ++ acc) []

/-- Concatenation of the unmarked (kept) token texts of a marked list. -/
def keptConcat (m : List (Bool × Token)) : List Char :=
  m.foldr (fun x acc => if x.1 then acc else x.2.text ++ acc) []

/-- The (index, text) pairs of the marked tokens. -/
def markedItems (m : List (Bool × Token)) : List (Nat × List Char) :=
  m.filterMap fun x => if x.1 then some (x.2.index, x.2.text) else none

/-- The tokens of a marked list carry cumulative indices starting at n. -/
def itemsOk (n : Nat) (m : List (Bool × Token)) : Prop :=
  indicesFrom n (m.map Prod.snd)

theorem itemsOk_nil (n : Nat) : itemsOk n [] := trivial

theorem itemsOk_cons {n : Nat} {x : Bool × Token} {r : List (Bool × Token)} :
    itemsOk n (x :: r) ↔ x.2.index = n ∧ itemsOk (n + x.2.text.length) r :=
  Iff.rfl

theorem allConcat_eq (m : List (Bool × Token)) :
    allConcat m = concatTexts (m.map Prod.snd) := by
  induction m with
  | nil => rfl
  | cons x r ih => simp [allConcat, concatTexts, List.map_cons] at ih ⊢; rw [ih]

theorem spliceIn_marked :
    ∀ (m : List (Bool × Token)) (pre : List Char), itemsOk pre.length m →
      spliceIn (pre ++ keptConcat m) (markedItems m) = pre ++ allConcat m := by
  intro m
  induction m with
  | nil => intro pre _; simp [spliceIn, keptConcat, allConcat, markedItems]
  | cons x r ih =>
      intro pre hok
      obtain ⟨hidx, hok'⟩ := itemsOk_cons.mp hok
      cases x with
      | mk flag t =>
          cases flag with
          | false =>
              have hkept : keptConcat ((false, t) :: r)
                  = t.text ++ keptConcat r := rfl
              have hall : allConcat ((false, t) :: r)
                  = t.text ++ allConcat r := rfl
              have hitems : markedItems ((false, t) :: r) = markedItems r := by
                simp [markedItems, List.filterMap_cons]
              rw [hkept, hall, hitems, ← List.append_assoc, ← List.append_assoc]
              apply ih (pre ++ t.text)
              simp only [List.length_append]
              exact hok'
          | true =>
              have hkept : keptConcat ((true, t) :: r) = keptConcat r := rfl
              have hall : allConcat ((true, t) :: r)
                  = t.text ++ allConcat r := rfl
              have hitems : markedItems ((true, t) :: r)
                  = (t.index, t.text) :: markedItems r := by
                simp [markedItems, List.filterMap_cons]
              rw [hkept, hall, hitems]
              show spliceIn
                (insertAt (pre ++ keptConcat r) t.index t.text)
                (markedItems r) = _
              have hidx' : t.index = pre.length := hidx
              have hins : insertAt (pre ++ keptConcat r) t.index t.text
                  = (pre ++ t.text) ++ keptConcat r := by
                simp only [insertAt, hidx']
                rw [List.take_left, List.drop_left, List.append_assoc]
              rw [hins, ← List.append_assoc]
              have := ih (pre ++ t.text)
                (by simpa [List.length_append] using hok')
              rw [this, List.append_assoc]

theorem spliceOut_marked :
    ∀ (m : List (Bool × Token)) (pre : List Char) (shift n : Nat),
      itemsOk n m → n = pre.length + shift →
      spliceOut (pre ++ allConcat m) shift (markedItems m)
        = pre ++ keptConcat m := by
  intro m
  induction m with
  | nil => intro pre shift n _ _; simp [spliceOut, keptConcat, allConcat, markedItems]
  | cons x r ih =>
      intro pre shift n hok hn
      obtain ⟨hidx, hok'⟩ := itemsOk_cons.mp hok
      cases x with
      | mk flag t =>
          cases flag with
          | false =>
              have hkept : keptConcat ((false, t) :: r)
                  = t.text ++ keptConcat r := rfl
              have hall : allConcat ((false, t) :: r)
                  = t.text ++ allConcat r := rfl
              have hitems : markedItems ((false, t) :: r) = markedItems r := by
                simp [markedItems, List.filterMap_cons]
              rw [hkept, hall, hitems, ← List.append_assoc, ← List.append_assoc]
              apply ih (pre ++ t.text) shift (n + t.text.length) hok'
              simp only [List.length_append]
              omega
          | true =>
              have hkept : keptConcat ((true, t) :: r) = keptConcat r := rfl
              have hall : allConcat ((true, t) :: r)
                  = t.text ++ allConcat r := rfl
              have hitems : markedItems ((true, t) :: r)
                  = (t.index, t.text) :: markedItems r := by
                simp [markedItems, List.filterMap_cons]
              rw [hkept, hall, hitems]
              show spliceOut
                (removeAt (pre ++ (t.text ++ allConcat r))
                  (t.index - shift) t.text.length)
                (shift + t.text.length) (markedItems r) = _
              have hidx' : t.index = n := hidx
              have hpos : t.index - shift = pre.length := by omega
              have hrem : removeAt (pre ++ (t.text ++ allConcat r))
                  pre.length t.text.length = pre ++ allConcat r := by
                simp only [removeAt]
                rw [List.take_left]
                have h2 : (pre ++ (t.text ++ allConcat r))
                    = (pre ++ t.text) ++ allConcat r := by
                  rw [List.append_assoc]
                have h3 : pre.length + t.text.length
                    = (pre ++ t.text).length := by
                  simp [List.length_append]
                rw [h2, h3, List.drop_left]
              rw [hpos, hrem]
              apply ih pre (shift + t.text.length) (n + t.text.length) hok'
              omega

theorem sideA_map_ins (bs : List Token) : sideA (bs.map Op.ins) = [] := by
  induction bs with
  | nil => rfl
  | cons b bs ih => simpa [sideA] using ih

theorem sideA_map_del (as : List Token) :
    sideA (as.map Op.del) = as.map (fun t => (true, t)) := by
  induction as with
  | nil => rfl
  | cons a as ih => simp [sideA, ih]

theorem sideB_map_ins (bs : List Token) :
    sideB (bs.map Op.ins) = bs.map (fun t => (true, t)) := by
  induction bs with
  | nil => rfl
  | cons b bs ih => simp [sideB, ih]

theorem sideB_map_del (as : List Token) : sideB (as.map Op.del) = [] := by
  induction as with
  | nil => rfl
  | cons a as ih => simpa [sideB] using ih

theorem keptConcat_all_marked (ts : List Token) :
    keptConcat (ts.map (fun t => (true, t))) = [] := by
  induction ts with
  | nil => rfl
  | cons t ts ih => simpa [keptConcat] using ih

/-- The two side views of the walk's operation stream list exactly the two
token sequences, and the kept texts agree on both sides. -/
theorem diffOps_sides :
    ∀ (as bs : List Token),
      (sideA (diffOps as bs)).map Prod.snd = as ∧
      (sideB (diffOps as bs)).map Prod.snd = bs ∧
      keptConcat (sideA (diffOps as bs)) = keptConcat (sideB (diffOps as bs)) := by
  intro as
  induction as with
  | nil =>
      intro bs
      rw [diffOps_nil_left]
      refine ⟨?_, ?_, ?_⟩
      · rw [sideA_map_ins]; rfl
      · rw [sideB_map_ins]; simp
      · rw [sideA_map_ins, sideB_map_ins, keptConcat_all_marked]; rfl
  | cons a as ihA =>
      intro bs
      induction bs with
      | nil =>
          rw [diffOps_nil_right]
          refine ⟨?_, ?_, ?_⟩
          · rw [sideA_map_del]; simp
          · rw [sideB_map_del]; rfl
          · rw [sideA_map_del, sideB_map_del, keptConcat_all_marked]; rfl
      | cons b bs ihB =>
          rw [diffOps_cons_cons]
          by_cases htext : a.text = b.text
          · obtain ⟨h1, h2, h3⟩ := ihA bs
            simp only [htext, if_true]
            refine ⟨?_, ?_, ?_⟩
            · simp [sideA, h1]
            · simp [sideB, h2]
            · show a.text ++ keptConcat (sideA (diffOps as bs))
                = b.text ++ keptConcat (sideB (diffOps as bs))
              rw [h3, htext]
          · simp only [htext, if_false]
            by_cases hcond : lcsLen (a :: as) bs ≤ lcsLen as (b :: bs)
            · obtain ⟨h1, h2, h3⟩ := ihA (b :: bs)
              simp only [hcond, if_true]
              refine ⟨?_, ?_, ?_⟩
              · simp [sideA, h1]
              · simp [sideB, h2]
              · show keptConcat (sideA (diffOps as (b :: bs)))
                  = keptConcat (sideB (diffOps as (b :: bs)))
                exact h3
            · obtain ⟨h1, h2, h3⟩ := ihB
              simp only [hcond, if_false]
              refine ⟨?_, ?_, ?_⟩
              · simp [sideA, h1]
              · simp [sideB, h2]
              · show keptConcat (sideA (diffOps (a :: as) bs))
                  = keptConcat (sideB (diffOps (a :: as) bs))
                exact h3

theorem markedItems_sideA (ops : List Op) :
    markedItems (sideA ops) = delItems (ops.filterMap opToChange) := by
  induction ops with
  | nil => rfl
  | cons o ops ih =>
      cases o with
      | keep ta tb =>
          simp [sideA, markedItems, List.filterMap_cons, opToChange,
            delItems] at ih ⊢
          exact ih
      | del t =>
          simp [sideA, markedItems, List.filterMap_cons, opToChange,
            delItems, ChangeType.deletion.sizeOf_spec] at ih ⊢
          exact ih
      | ins t =>
          simp [sideA, markedItems, List.filterMap_cons, opToChange,
            delItems] at ih ⊢
          exact ih

theorem markedItems_sideB (ops : List Op) :
    markedItems (sideB ops) = insItems (ops.filterMap opToChange) := by
  induction ops with
  | nil => rfl
  | cons o ops ih =>
      cases o with
      | keep ta tb =>
          simp [sideB, markedItems, List.filterMap_cons, opToChange,
            insItems] at ih ⊢
          exact ih
      | del t =>
          simp [sideB, markedItems, List.filterMap_cons, opToChange,
            insItems] at ih ⊢
          exact ih
      | ins t =>
          simp [sideB, markedItems, List.filterMap_cons, opToChange,
            insItems] at ih ⊢
          exact ih

theorem markedItems_ge {m : List (Bool × Token)} :
    ∀ {n : Nat}, itemsOk n m → ∀ p ∈ markedItems m, n ≤ p.1 := by
  induction m with
  | nil => intro n _ p hp; simp [markedItems] at hp
  | cons x r ih =>
      intro n hok p hp
      obtain ⟨hidx, hok'⟩ := itemsOk_cons.mp hok
      have hidx' : x.2.index = n := hidx
      by_cases hflag : x.1
      · simp [markedItems, List.filterMap_cons, hflag] at hp
        rcases hp with hp | hp
        · have hp1 : p.1 = x.2.index := by rw [hp]
          omega
        · have := ih hok' p (by simpa [markedItems] using hp)
          omega
      · simp [markedItems, List.filterMap_cons, hflag] at hp
        have := ih hok' p (by simpa [markedItems] using hp)
        omega

theorem markedItems_sorted {m : List (Bool × Token)} :
    ∀ {n : Nat}, itemsOk n m →
      List.Pairwise (fun p q : Nat × List Char => p.1 ≤ q.1)
        (markedItems m) := by
  induction m with
  | nil => intro n _; simp [markedItems]
  | cons x r ih =>
      intro n hok
      obtain ⟨hidx, hok'⟩ := itemsOk_cons.mp hok
      by_cases hflag : x.1
      · have hhead : ∀ p ∈ markedItems r, x.2.index ≤ p.1 := by
          intro p hp
          have := markedItems_ge hok' p hp
          omega
        have : markedItems (x :: r)
            = (x.2.index, x.2.text) :: markedItems r := by
          simp [markedItems, List.filterMap_cons, hflag]
        rw [this]
        exact List.pairwise_cons.mpr ⟨hhead, ih hok'⟩
      · have : markedItems (x :: r) = markedItems r := by
          simp [markedItems, List.filterMap_cons, hflag]
        rw [this]
        exact ih hok'

theorem insItems_groupReplacements (cs : List TextChange) (rid : Nat) :
    insItems (groupReplacements cs rid) = insItems cs :=
  groupReplacements_filterMap
    (fun c => if c.type = ChangeType.insertion
      then some (c.position, c.text) else none)
    (fun c rid => rfl) cs.length cs (Nat.le_refl _) rid

theorem delItems_groupReplacements (cs : List TextChange) (rid : Nat) :
    delItems (groupReplacements cs rid) = delItems cs :=
  groupReplacements_filterMap
    (fun c => if c.type = ChangeType.deletion
      then some (c.originalPosition.getD c.position, c.text) else none)
    (fun c rid => rfl) cs.length cs (Nat.le_refl _) rid

/-- C1 — Round-trip reconstruction: the insertion records of
findTextDifferences A B carry ascending positions, and so do the deletion
records; removing every deletion's text from A at its recorded position
(list order, cumulative shift) and then splicing every insertion's text in
at its recorded position (ascending order) reconstructs B exactly; and
conversely removing the insertions from B and re-adding the deletions
reconstructs A exactly. -/
theorem findTextDifferences_roundtrip (A B : List Char) :
    List.Pairwise (fun p q : Nat × List Char => p.1 ≤ q.1)
      (insItems (findTextDifferences A B)) ∧
    List.Pairwise (fun p q : Nat × List Char => p.1 ≤ q.1)
      (delItems (findTextDifferences A B)) ∧
    spliceIn (spliceOut A 0 (delItems (findTextDifferences A B)))
      (insItems (findTextDifferences A B)) = B ∧
    spliceIn (spliceOut B 0 (insItems (findTextDifferences A B)))
      (delItems (findTextDifferences A B)) = A := by
  by_cases hAB : A = B
  · subst hAB
    simp [findTextDifferences, insItems, delItems, spliceIn, spliceOut]
  · have hfd : findTextDifferences A B
        = groupReplacements
            ((diffOps (tokenize A) (tokenize B)).filterMap opToChange) 0 := by
      rw [findTextDifferences, if_neg hAB]
    obtain ⟨hsa, hsb, hkk⟩ := diffOps_sides (tokenize A) (tokenize B)
    have hins : insItems (findTextDifferences A B)
        = markedItems (sideB (diffOps (tokenize A) (tokenize B))) := by
      rw [hfd, insItems_groupReplacements, markedItems_sideB]
    have hdel : delItems (findTextDifferences A B)
        = markedItems (sideA (diffOps (tokenize A) (tokenize B))) := by
      rw [hfd, delItems_groupReplacements, markedItems_sideA]
    have hokA : itemsOk 0 (sideA (diffOps (tokenize A) (tokenize B))) := by
      unfold itemsOk
      rw [hsa]
      exact tokenize_indices A
    have hokB : itemsOk 0 (sideB (diffOps (tokenize A) (tokenize B))) := by
      unfold itemsOk
      rw [hsb]
      exact tokenize_indices B
    have hallA : allConcat (sideA (diffOps (tokenize A) (tokenize B))) = A := by
      rw [allConcat_eq, hsa]
      exact tokenize_concat A
    have hallB : allConcat (sideB (diffOps (tokenize A) (tokenize B))) = B := by
      rw [allConcat_eq, hsb]
      exact tokenize_concat B
    have hOutA : spliceOut A 0 (delItems (findTextDifferences A B))
        = keptConcat (sideA (diffOps (tokenize A) (tokenize B))) := by
      rw [hdel]
      have h := spliceOut_marked (sideA (diffOps (tokenize A) (tokenize B)))
        [] 0 0 hokA (by simp)
      simpa [hallA] using h
    have hOutB : spliceOut B 0 (insItems (findTextDifferences A B))
        = keptConcat (sideB (diffOps (tokenize A) (tokenize B))) := by
      rw [hins]
      have h := spliceOut_marked (sideB (diffOps (tokenize A) (tokenize B)))
        [] 0 0 hokB (by simp)
      simpa [hallB] using h
    have hInB : spliceIn
        (keptConcat (sideB (diffOps (tokenize A) (tokenize B))))
        (markedItems (sideB (diffOps (tokenize A) (tokenize B)))) = B := by
      have := spliceIn_marked (sideB (diffOps (tokenize A) (tokenize B)))
        [] hokB
      simpa [hallB] using this
    have hInA : spliceIn
        (keptConcat (sideA (diffOps (tokenize A) (tokenize B))))
        (markedItems (sideA (diffOps (tokenize A) (tokenize B)))) = A := by
      have := spliceIn_marked (sideA (diffOps (tokenize A) (tokenize B)))
        [] hokA
      simpa [hallA] using this
    refine ⟨?_, ?_, ?_, ?_⟩
    · rw [hins]
      exact markedItems_sorted hokB
    · rw [hdel]
      exact markedItems_sorted hokA
    · rw [hOutA, hkk, hins]
      exact hInB
    · rw [hOutB, ← hkk, hdel]
      exact hInA

/-- The pairing condition of the post-pass: a deletion immediately followed
by an insertion whose positions differ by at most one character. -/
def qualifies (c d : TextChange) : Prop :=
  c.type = ChangeType.deletion ∧ d.type = ChangeType.insertion ∧
    Nat.dist (c.originalPosition.getD c.position) d.position ≤ 1

instance (c d : TextChange) : Decidable (qualifies c d) := by
  unfold qualifies
  infer_instance

theorem groupReplacements_nil (rid : Nat) : groupReplacements [] rid = [] :=
  rfl

theorem groupReplacements_single (c : TextChange) (rid : Nat) :
    groupReplacements [c] rid = [c] := rfl

theorem groupReplacements_cons₂_pos {c1 c2 : TextChange}
    (rest : List TextChange) (rid : Nat) (hq : qualifies c1 c2) :
    groupReplacements (c1 :: c2 :: rest) rid =
      markReplacement c1 rid :: markReplacement c2 rid ::
        groupReplacements rest (rid + 1) := by
  simp only [groupReplacements]
  exact if_pos hq

theorem groupReplacements_cons₂_neg {c1 c2 : TextChange}
    (rest : List TextChange) (rid : Nat) (hq : ¬ qualifies c1 c2) :
    groupReplacements (c1 :: c2 :: rest) rid =
      c1 :: groupReplacements (c2 :: rest) rid := by
  simp only [groupReplacements]
  exact if_neg hq

theorem qualifies_congr {c c' d d' : TextChange} (hc : core c = core c')
    (hd : core d = core d') : qualifies c d ↔ qualifies c' d' := by
  simp only [core, Prod.mk.injEq] at hc hd
  obtain ⟨hc1, hc2, hc3, hc4⟩ := hc
  obtain ⟨hd1, hd2, hd3, hd4⟩ := hd
  simp [qualifies, hc1, hc3, hc4, hd1, hd3]

theorem core_qualifies_fields {c : TextChange} :
    core (markReplacement c 0) = core c := rfl

/-- A change record that the post-pass has not (yet) marked. -/
def cleanChange (c : TextChange) : Prop :=
  c.isReplacement = false ∧ c.replacementGroup = none

theorem cleanChange_raw (ops : List Op) :
    ∀ c ∈ ops.filterMap opToChange, cleanChange c := by
  induction ops with
  | nil => intro c hc; simp at hc
  | cons o ops ih =>
      intro c hc
      simp only [List.filterMap_cons, opToChange] at hc
      cases o with
      | keep ta tb => exact ih c hc
      | del t =>
          rcases List.mem_cons.mp hc with hc | hc
          · subst hc; exact ⟨rfl, rfl⟩
          · exact ih c hc
      | ins t =>
          rcases List.mem_cons.mp hc with hc | hc
          · subst hc; exact ⟨rfl, rfl⟩
          · exact ih c hc

/-- Every record of the first element of groupReplacements applied to a
nonempty list keeps the core of the input's first element. -/
theorem groupReplacements_head (x : TextChange) (xs : List TextChange)
    (rid : Nat) :
    ∃ h tl, groupReplacements (x :: xs) rid = h :: tl ∧ core h = core x := by
  cases xs with
  | nil => exact ⟨x, [], rfl, rfl⟩
  | cons y ys =>
      by_cases hq : qualifies x y
      · exact ⟨markReplacement x rid, _,
          groupReplacements_cons₂_pos ys rid hq, rfl⟩
      · exact ⟨x, _, groupReplacements_cons₂_neg ys rid hq, rfl⟩

/-- All group ids assigned by the pass starting at rid are at least rid,
provided the input is unmarked. -/
theorem groupReplacements_group_ge :
    ∀ (n : Nat) (cs : List TextChange), cs.length ≤ n →
      (∀ c ∈ cs, cleanChange c) → ∀ (rid : Nat),
      ∀ c ∈ groupReplacements cs rid, ∀ g, c.replacementGroup = some g →
        rid ≤ g := by
  intro n
  induction n with
  | zero =>
      intro cs hcs _ rid c hc
      have : cs = [] := List.length_eq_zero.mp (Nat.le_zero.mp hcs)
      subst this
      simp [groupReplacements_nil] at hc
  | succ n ih =>
      intro cs hcs hclean rid c hc g hg
      match cs with
      | [] => simp [groupReplacements_nil] at hc
      | [x] =>
          rw [groupReplacements_single] at hc
          simp at hc
          subst hc
          have := (hclean c (by simp)).2
          rw [this] at hg
          cases hg
      | c1 :: c2 :: rest =>
          by_cases hq : qualifies c1 c2
          · rw [groupReplacements_cons₂_pos rest rid hq] at hc
            simp only [List.mem_cons] at hc
            rcases hc with hc | hc | hc
            · subst hc
              simp [markReplacement] at hg
              omega
            · subst hc
              simp [markReplacement] at hg
              omega
            · have hr : rest.length ≤ n := by
                simp only [List.length_cons] at hcs
                omega
              have := ih rest hr
                (fun c hcm => hclean c (by simp [hcm])) (rid + 1) c hc g hg
              omega
          · rw [groupReplacements_cons₂_neg rest rid hq] at hc
            simp only [List.mem_cons] at hc
            rcases hc with hc | hc
            · subst hc
              have := (hclean c (by simp)).2
              rw [this] at hg
              cases hg
            · have hr : (c2 :: rest).length ≤ n := by
                simp only [List.length_cons] at hcs ⊢
                omega
              exact ih (c2 :: rest) hr
                (fun c hcm => hclean c (by simp at hcm ⊢; tauto)) rid c hc g hg

/-- Every adjacent deletion-insertion pair at distance at most one in the
output of the pass is marked as one replacement group with id at least
rid. -/
theorem groupReplacements_pairs_marked :
    ∀ (n : Nat) (cs : List TextChange), cs.length ≤ n →
      (∀ c ∈ cs, cleanChange c) → ∀ (rid : Nat)
      (pre : List TextChange) (c d : TextChange) (post : List TextChange),
      groupReplacements cs rid = pre ++ c :: d :: post →
      qualifies c d →
      c.isReplacement = true ∧ d.isReplacement = true ∧
        c.replacementGroup = d.replacementGroup ∧
        ∃ g, c.replacementGroup = some g ∧ rid ≤ g := by
  intro n
  induction n with
  | zero =>
      intro cs hcs _ rid pre c d post heq _
      have : cs = [] := List.length_eq_zero.mp (Nat.le_zero.mp hcs)
      subst this
      rw [groupReplacements_nil] at heq
      have := congrArg List.length heq
      simp [List.length_append] at this
      omega
  | succ n ih =>
      intro cs hcs hclean rid pre c d post heq hqcd
      match cs with
      | [] =>
          rw [groupReplacements_nil] at heq
          have := congrArg List.length heq
          simp [List.length_append] at this
          omega
      | [x] =>
          rw [groupReplacements_single] at heq
          have := congrArg List.length heq
          simp [List.length_append] at this
          omega
      | c1 :: c2 :: rest =>
          by_cases hq : qualifies c1 c2
          · rw [groupReplacements_cons₂_pos rest rid hq] at heq
            cases pre with
            | nil =>
                simp only [List.nil_append, List.cons.injEq] at heq
                obtain ⟨hc, hd, hpost⟩ := heq
                subst hc
                subst hd
                refine ⟨rfl, rfl, rfl, rid, rfl, Nat.le_refl _⟩
            | cons x pre' =>
                simp only [List.cons_append, List.cons.injEq] at heq
                obtain ⟨hx, heq⟩ := heq
                cases pre' with
                | nil =>
                    simp only [List.nil_append, List.cons.injEq] at heq
                    obtain ⟨hc, hrest⟩ := heq
                    exfalso
                    have hctype : c.type = ChangeType.insertion := by
                      rw [← hc]
                      exact hq.2.1
                    have := hqcd.1
                    rw [hctype] at this
                    cases this
                | cons y pre'' =>
                    simp only [List.cons_append, List.cons.injEq] at heq
                    obtain ⟨hy, heq⟩ := heq
                    have hr : rest.length ≤ n := by
                      simp only [List.length_cons] at hcs
                      omega
                    obtain ⟨h1, h2, h3, g, hg, hge⟩ := ih rest hr
                      (fun c hcm => hclean c (by simp [hcm])) (rid + 1)
                      pre'' c d post heq hqcd
                    exact ⟨h1, h2, h3, g, hg, by omega⟩
          · rw [groupReplacements_cons₂_neg rest rid hq] at heq
            cases pre with
            | nil =>
                simp only [List.nil_append, List.cons.injEq] at heq
                obtain ⟨hc, heq⟩ := heq
                obtain ⟨h, tl, hh, hcore⟩ := groupReplacements_head c2 rest rid
                rw [hh] at heq
                have hd : d = h := by
                  have := heq.symm
                  simp only [List.cons.injEq] at this
                  exact this.1
                exfalso
                apply hq
                have hcc : core c1 = core c := by rw [hc]
                have hdc : core c2 = core d := by rw [hd, hcore]
                exact (qualifies_congr hcc.symm hdc.symm).mp hqcd
            | cons x pre' =>
                simp only [List.cons_append, List.cons.injEq] at heq
                obtain ⟨hx, heq⟩ := heq
                have hr : (c2 :: rest).length ≤ n := by
                  simp only [List.length_cons] at hcs ⊢
                  omega
                exact ih (c2 :: rest) hr
                  (fun c hcm => hclean c (by simp at hcm ⊢; tauto)) rid
                  pre' c d post heq hqcd

/-- Every record marked by the pass belongs to an adjacent qualifying
deletion-insertion pair sharing one group. -/
theorem groupReplacements_marked_pairs :
    ∀ (n : Nat) (cs : List TextChange), cs.length ≤ n →
      (∀ c ∈ cs, cleanChange c) → ∀ (rid : Nat),
      ∀ c ∈ groupReplacements cs rid, c.isReplacement = true →
      ∃ pre c' d' post, groupReplacements cs rid = pre ++ c' :: d' :: post ∧
        qualifies c' d' ∧ c'.replacementGroup = d'.replacementGroup ∧
        (c = c' ∨ c = d') := by
  intro n
  induction n with
  | zero =>
      intro cs hcs _ rid c hc
      have : cs = [] := List.length_eq_zero.mp (Nat.le_zero.mp hcs)
      subst this
      rw [groupReplacements_nil] at hc
      simp at hc
  | succ n ih =>
      intro cs hcs hclean rid c hc hrep
      match cs with
      | [] =>
          rw [groupReplacements_nil] at hc
          simp at hc
      | [x] =>
          rw [groupReplacements_single] at hc
          simp at hc
          subst hc
          have := (hclean c (by simp)).1
          rw [this] at hrep
          cases hrep
      | c1 :: c2 :: rest =>
          by_cases hq : qualifies c1 c2
          · rw [groupReplacements_cons₂_pos rest rid hq] at hc ⊢
            simp only [List.mem_cons] at hc
            rcases hc with hc | hc | hc
            · refine ⟨[], markReplacement c1 rid, markReplacement c2 rid,
                groupReplacements rest (rid + 1), rfl, ?_, rfl, Or.inl hc⟩
              exact (qualifies_congr
                (core_markReplacement c1 rid) (core_markReplacement c2 rid)).mpr hq
            · refine ⟨[], markReplacement c1 rid, markReplacement c2 rid,
                groupReplacements rest (rid + 1), rfl, ?_, rfl, Or.inr hc⟩
              exact (qualifies_congr
                (core_markReplacement c1 rid) (core_markReplacement c2 rid)).mpr hq
            · have hr : rest.length ≤ n := by
                simp only [List.length_cons] at hcs
                omega
              obtain ⟨pre, c', d', post, hdec, hq', hgr, hor⟩ :=
                ih rest hr (fun c hcm => hclean c (by simp [hcm])) (rid + 1)
                  c hc hrep
              exact ⟨markReplacement c1 rid :: markReplacement c2 rid :: pre,
                c', d', post, by rw [hdec]; rfl, hq', hgr, hor⟩
          · rw [groupReplacements_cons₂_neg rest rid hq] at hc ⊢
            simp only [List.mem_cons] at hc
            rcases hc with hc | hc
            · subst hc
              have := (hclean c (by simp)).1
              rw [this] at hrep
              cases hrep
            · have hr : (c2 :: rest).length ≤ n := by
                simp only [List.length_cons] at hcs ⊢
                omega
              obtain ⟨pre, c', d', post, hdec, hq', hgr, hor⟩ :=
                ih (c2 :: rest) hr
                  (fun c hcm => hclean c (by simp at hcm ⊢; tauto)) rid
                  c hc hrep
              exact ⟨c1 :: pre, c', d', post, by rw [hdec]; rfl, hq', hgr, hor⟩

/-- Two records of the output carrying the same group id are adjacent and
form a qualifying pair: each group id is fresh, linking exactly one
deletion and the insertion immediately after it. -/
theorem groupReplacements_group_fresh :
    ∀ (n : Nat) (cs : List TextChange), cs.length ≤ n →
      (∀ c ∈ cs, cleanChange c) → ∀ (rid : Nat)
      (pre mid post : List TextChange) (e1 e2 : TextChange) (g : Nat),
      groupReplacements cs rid = pre ++ e1 :: (mid ++ e2 :: post) →
      e1.replacementGroup = some g → e2.replacementGroup = some g →
      mid = [] ∧ qualifies e1 e2 := by
  intro n
  induction n with
  | zero =>
      intro cs hcs _ rid pre mid post e1 e2 g heq _ _
      have : cs = [] := List.length_eq_zero.mp (Nat.le_zero.mp hcs)
      subst this
      rw [groupReplacements_nil] at heq
      have := congrArg List.length heq
      simp [List.length_append] at this
      omega
  | succ n ih =>
      intro cs hcs hclean rid pre mid post e1 e2 g heq hg1 hg2
      match cs with
      | [] =>
          rw [groupReplacements_nil] at heq
          have := congrArg List.length heq
          simp [List.length_append] at this
          omega
      | [x] =>
          rw [groupReplacements_single] at heq
          have := congrArg List.length heq
          simp [List.length_append] at this
          omega
      | c1 :: c2 :: rest =>
          have hcleanRest : ∀ c ∈ rest, cleanChange c :=
            fun c hcm => hclean c (by simp [hcm])
          have hr : rest.length ≤ n := by
            simp only [List.length_cons] at hcs
            omega
          by_cases hq : qualifies c1 c2
          · rw [groupReplacements_cons₂_pos rest rid hq] at heq
            cases pre with
            | nil =>
                simp only [List.nil_append, List.cons.injEq] at heq
                obtain ⟨he1, heq⟩ := heq
                cases mid with
                | nil =>
                    simp only [List.nil_append, List.cons.injEq] at heq
                    refine ⟨rfl, ?_⟩
                    rw [← he1, ← heq.1]
                    exact (qualifies_congr (core_markReplacement c1 rid)
                      (core_markReplacement c2 rid)).mpr hq
                | cons m mid' =>
                    simp only [List.cons_append, List.cons.injEq] at heq
                    obtain ⟨hm, heq⟩ := heq
                    exfalso
                    have he2mem : e2 ∈ groupReplacements rest (rid + 1) := by
                      rw [heq]
                      exact List.mem_append_right _ (List.mem_cons_self _ _)
                    have hge := groupReplacements_group_ge rest.length rest
                      (Nat.le_refl _) hcleanRest (rid + 1) e2 he2mem g hg2
                    have : e1.replacementGroup = some rid := by
                      rw [← he1]
                      rfl
                    rw [this] at hg1
                    cases hg1
                    omega
            | cons x pre' =>
                simp only [List.cons_append, List.cons.injEq] at heq
                obtain ⟨hx, heq⟩ := heq
                cases pre' with
                | nil =>
                    simp only [List.nil_append, List.cons.injEq] at heq
                    obtain ⟨he1, heq⟩ := heq
                    exfalso
                    have he2mem : e2 ∈ groupReplacements rest (rid + 1) := by
                      rw [heq]
                      exact List.mem_append_right _ (List.mem_cons_self _ _)
                    have hge := groupReplacements_group_ge rest.length rest
                      (Nat.le_refl _) hcleanRest (rid + 1) e2 he2mem g hg2
                    have : e1.replacementGroup = some rid := by
                      rw [← he1]
                      rfl
                    rw [this] at hg1
                    cases hg1
                    omega
                | cons y pre'' =>
                    simp only [List.cons_append, List.cons.injEq] at heq
                    obtain ⟨hy, heq⟩ := heq
                    exact ih rest hr hcleanRest (rid + 1) pre'' mid post
                      e1 e2 g heq hg1 hg2
          · rw [groupReplacements_cons₂_neg rest rid hq] at heq
            have hcleanTail : ∀ c ∈ c2 :: rest, cleanChange c :=
              fun c hcm => hclean c (by simp at hcm ⊢; tauto)
            have hrt : (c2 :: rest).length ≤ n := by
              simp only [List.length_cons] at hcs ⊢
              omega
            cases pre with
            | nil =>
                simp only [List.nil_append, List.cons.injEq] at heq
                obtain ⟨he1, heq⟩ := heq
                exfalso
                have := (hclean c1 (by simp)).2
                rw [← he1, this] at hg1
                cases hg1
            | cons x pre' =>
                simp only [List.cons_append, List.cons.injEq] at heq
                obtain ⟨hx, heq⟩ := heq
                exact ih (c2 :: rest) hrt hcleanTail rid pre' mid post
                  e1 e2 g heq hg1 hg2

/-- C6 — Replacement grouping: in the list returned by findTextDifferences,
whenever a deletion is immediately followed by an insertion with
abs(originalPosition - position) at most 1, exactly those two records are
marked isReplacement = true and share one fresh replacementGroup id: every
such adjacent pair is marked and shares a group (first conjunct), every
marked record belongs to such a pair (second conjunct), and a group id
never links records other than one adjacent qualifying pair (third
conjunct).  In particular, "the cat sat" versus "the dog sat" yields
exactly one deletion "cat" and one insertion "dog" in the same group. -/
theorem findTextDifferences_replacement_grouping (A B : List Char) :
    (∀ pre c d post, findTextDifferences A B = pre ++ c :: d :: post →
      qualifies c d →
      c.isReplacement = true ∧ d.isReplacement = true ∧
        c.replacementGroup = d.replacementGroup ∧
        c.replacementGroup ≠ none) ∧
    (∀ c ∈ findTextDifferences A B, c.isReplacement = true →
      ∃ pre c' d' post,
        findTextDifferences A B = pre ++ c' :: d' :: post ∧
        qualifies c' d' ∧ c'.replacementGroup = d'.replacementGroup ∧
        (c = c' ∨ c = d')) ∧
    (∀ pre mid post e1 e2 g,
      findTextDifferences A B = pre ++ e1 :: (mid ++ e2 :: post) →
      e1.replacementGroup = some g → e2.replacementGroup = some g →
      mid = [] ∧ qualifies e1 e2) ∧
    findTextDifferences "the cat sat".data "the dog sat".data =
      [{ type := ChangeType.deletion, text := "cat".data, position := 4,
         originalPosition := some 4, isGrouped := true, isReplacement := true,
         replacementGroup := some 0 },
       { type := ChangeType.insertion, text := "dog".data, position := 4,
         originalPosition := none, isGrouped := true, isReplacement := true,
         replacementGroup := some 0 }] := by
  refine ⟨?_, ?_, ?_, by decide⟩
  · intro pre c d post heq hq
    by_cases hAB : A = B
    · rw [findTextDifferences, if_pos hAB] at heq
      have := congrArg List.length heq
      simp [List.length_append] at this
      omega
    · rw [findTextDifferences, if_neg hAB] at heq
      obtain ⟨h1, h2, h3, g, hg, _⟩ := groupReplacements_pairs_marked
        ((diffOps (tokenize A) (tokenize B)).filterMap opToChange).length
        ((diffOps (tokenize A) (tokenize B)).filterMap opToChange)
        (Nat.le_refl _) (cleanChange_raw _) 0 pre c d post heq hq
      refine ⟨h1, h2, h3, ?_⟩
      rw [hg]
      simp
  · intro c hc hrep
    by_cases hAB : A = B
    · rw [findTextDifferences, if_pos hAB] at hc
      simp at hc
    · rw [findTextDifferences, if_neg hAB] at hc ⊢
      exact groupReplacements_marked_pairs
        ((diffOps (tokenize A) (tokenize B)).filterMap opToChange).length
        ((diffOps (tokenize A) (tokenize B)).filterMap opToChange)
        (Nat.le_refl _) (cleanChange_raw _) 0 c hc hrep
  · intro pre mid post e1 e2 g heq hg1 hg2
    by_cases hAB : A = B
    · rw [findTextDifferences, if_pos hAB] at heq
      have := congrArg List.length heq
      simp [List.length_append] at this
      omega
    · rw [findTextDifferences, if_neg hAB] at heq
      exact groupReplacements_group_fresh
        ((diffOps (tokenize A) (tokenize B)).filterMap opToChange).length
        ((diffOps (tokenize A) (tokenize B)).filterMap opToChange)
        (Nat.le_refl _) (cleanChange_raw _) 0 pre mid post e1 e2 g
        heq hg1 hg2

/-- Witness for C6: the theorem instantiated on the "cat"/"dog" example
marks both records of the adjacent qualifying pair. -/
theorem findTextDifferences_replacement_grouping_wit :
    ({ type := ChangeType.deletion, text := "cat".data, position := 4,
       originalPosition := some 4, isGrouped := true, isReplacement := true,
       replacementGroup := some 0 } : TextChange).isReplacement = true ∧
    ({ type := ChangeType.insertion, text := "dog".data, position := 4,
       originalPosition := none, isGrouped := true, isReplacement := true,
       replacementGroup := some 0 } : TextChange).isReplacement = true := by
  have h := (findTextDifferences_replacement_grouping
      "the cat sat".data "the dog sat".data).1 []
    { type := ChangeType.deletion, text := "cat".data, position := 4,
      originalPosition := some 4, isGrouped := true, isReplacement := true,
      replacementGroup := some 0 }
    { type := ChangeType.insertion, text := "dog".data, position := 4,
      originalPosition := none, isGrouped := true, isReplacement := true,
      replacementGroup := some 0 } []
    (by decide) (by decide)
  exact ⟨h.1, h.2.1⟩

/-- Witness for C7: the partition property instantiated on a concrete
string and the uniformity of one of its concrete tokens. -/
theorem tokenize_partition_wit :
    concatTexts (tokenize "a b".data) = "a b".data ∧
    (⟨"a".data, 0⟩ : Token).text ≠ [] := by
  have h := tokenize_partition "a b".data
  exact ⟨h.1, (h.2.2.1 ⟨"a".data, 0⟩ (by decide)).1⟩

/-- The component state of PageContent.tsx (src/components): three content
strings, the cached change list, the highlight toggle, the undo history and
the edit-mode flag.  This variant has no comparisonBase field; diffs are
always taken from originalContent. -/
structure PCState where
  initialContent : List Char
  originalContent : List Char
  editedContent : List Char
  textChanges : List TextChange
  showHighlights : Bool
  history : List (List Char)
  historyIndex : Nat
  editMode : Bool
deriving DecidableEq, Repr

namespace PCState

/-- Fresh mount / pageData effect of PageContent.tsx: every content field
is the loaded text, one history entry, highlights on. -/
def load (content : List Char) : PCState :=
  { initialContent := content, originalContent := content,
    editedContent := content, textChanges := [], showHighlights := true,
    history := [content], historyIndex := 0, editMode := false }

/-- The diff effect of PageContent.tsx: textChanges is empty when
originalContent equals the (debounced) edited content, otherwise
findTextDifferences of the two. -/
def recompute (s : PCState) : PCState :=
  if s.originalContent = s.editedContent then { s with textChanges := [] }
  else
    { s with
      textChanges := findTextDifferences s.originalContent s.editedContent }

/-- handleContentChange: when the new text differs from the buffer,
truncate the forward history, append the new text, point at it, and update
the buffer; otherwise do nothing. -/
def contentChange (s : PCState) (newContent : List Char) : PCState :=
  if newContent ≠ s.editedContent then
    { s with
      history := s.history.take (s.historyIndex + 1) ++ [newContent],
      historyIndex :=
        (s.history.take (s.historyIndex + 1) ++ [newContent]).length - 1,
      editedContent := newContent }
  else s

/-- handleUndo: no-op at index 0, else decrement the index and copy that
history entry into the buffer. -/
def undo (s : PCState) : PCState :=
  if 0 < s.historyIndex then
    { s with
      historyIndex := s.historyIndex - 1,
      editedContent := s.history.getD (s.historyIndex - 1) [] }
  else s

/-- handleRedo: no-op at the last index, else increment the index and copy
that history entry into the buffer. -/
def redo (s : PCState) : PCState :=
  if s.historyIndex < s.history.length - 1 then
    { s with
      historyIndex := s.historyIndex + 1,
      editedContent := s.history.getD (s.historyIndex + 1) [] }
  else s

/-- handleSaveChanges of PageContent.tsx: leaves edit mode, turns
highlights on and resets the history to the single saved entry.  The
assignment of editedContent into originalContent is commented out in the
source ("don't do this immediately"), so originalContent is NOT updated. -/
def save (s : PCState) : PCState :=
  { s with editMode := false, showHighlights := true,
           history := [s.editedContent], historyIndex := 0 }

/-- handleDiscardChanges of PageContent.tsx: copies originalContent back
into the buffer, appends it as a new history entry after truncating the
forward history, and leaves edit mode. -/
def discard (s : PCState) : PCState :=
  { s with
    editedContent := s.originalContent,
    history := s.history.take (s.historyIndex + 1) ++ [s.originalContent],
    historyIndex := s.historyIndex + 1,
    editMode := false }

/-- Edit followed by the diff effect. -/
def stepEdit (s : PCState) (c : List Char) : PCState :=
  recompute (contentChange s c)

/-- Save followed by the diff effect. -/
def stepSave (s : PCState) : PCState :=
  recompute (save s)

end PCState

/-- The component state of the unnamed near-duplicate copy of PageContent
(src/unnamed/part_005), which adds a comparisonBase field (diff base) and
an allChanges accumulator. -/
structure PC5State where
  initialContent : List Char
  comparisonBase : List Char
  originalContent : List Char
  editedContent : List Char
  textChanges : List TextChange
  allChanges : List TextChange
  showHighlights : Bool
  history : List (List Char)
  historyIndex : Nat
  editMode : Bool
deriving DecidableEq, Repr

namespace PC5State

/-- Fresh mount / pageData effect of the part_005 variant. -/
def load (content : List Char) : PC5State :=
  { initialContent := content, comparisonBase := content,
    originalContent := content, editedContent := content, textChanges := [],
    allChanges := [], showHighlights := true, history := [content],
    historyIndex := 0, editMode := false }

/-- The diff effect of the part_005 variant: the target is the edited
buffer in edit mode and the saved text otherwise; changes are cleared when
highlighting is off or the base equals the target. -/
def recompute (s : PC5State) : PC5State :=
  if s.showHighlights = false ∨
      s.comparisonBase = (if s.editMode then s.editedContent
        else s.originalContent) then
    { s with textChanges := [] }
  else
    { s with
      textChanges := findTextDifferences s.comparisonBase
        (if s.editMode then s.editedContent else s.originalContent) }

/-- handleContentChange (identical to the PageContent.tsx variant). -/
def contentChange (s : PC5State) (newContent : List Char) : PC5State :=
  if newContent ≠ s.editedContent then
    { s with
      history := s.history.take (s.historyIndex + 1) ++ [newContent],
      historyIndex :=
        (s.history.take (s.historyIndex + 1) ++ [newContent]).length - 1,
      editedContent := newContent }
  else s

/-- handleUndo (identical to the PageContent.tsx variant). -/
def undo (s : PC5State) : PC5State :=
  if 0 < s.historyIndex then
    { s with
      historyIndex := s.historyIndex - 1,
      editedContent := s.history.getD (s.historyIndex - 1) [] }
  else s

/-- handleRedo (identical to the PageContent.tsx variant). -/
def redo (s : PC5State) : PC5State :=
  if s.historyIndex < s.history.length - 1 then
    { s with
      historyIndex := s.historyIndex + 1,
      editedContent := s.history.getD (s.historyIndex + 1) [] }
  else s

/-- handleSaveChanges of the part_005 variant: appends the fresh diff to
allChanges, advances comparisonBase and originalContent to the saved text,
leaves edit mode and turns highlights on.  The history is NOT reset. -/
def save (s : PC5State) : PC5State :=
  { s with
    allChanges := s.allChanges ++
      findTextDifferences s.originalContent s.editedContent,
    comparisonBase := s.editedContent,
    originalContent := s.editedContent,
    editMode := false, showHighlights := true }

/-- handleDiscardChanges of the part_005 variant: reverts every content
field to initialContent, clears allChanges, resets the history to the
single initial entry and leaves edit mode. -/
def discard (s : PC5State) : PC5State :=
  { s with
    editedContent := s.initialContent,
    originalContent := s.initialContent,
    comparisonBase := s.initialContent,
    allChanges := [],
    history := [s.initialContent], historyIndex := 0, editMode := false }

/-- The Edit button: enter edit mode. -/
def enterEdit (s : PC5State) : PC5State :=
  { s with editMode := true }

/-- toggleShowChanges: flip the highlight toggle. -/
def toggle (s : PC5State) : PC5State :=
  { s with showHighlights := !s.showHighlights }

/-- Edit followed by the diff effect. -/
def stepEdit (s : PC5State) (c : List Char) : PC5State :=
  recompute (contentChange s c)

/-- Save followed by the diff effect. -/
def stepSave (s : PC5State) : PC5State :=
  recompute (save s)

/-- Discard followed by the diff effect. -/
def stepDiscard (s : PC5State) : PC5State :=
  recompute (discard s)

end PC5State

/-- The user actions of the part_005 content-state manager; each runs its
handler and then the diff effect. -/
inductive PC5Action where
  | edit (content : List Char)
  | undo
  | redo
  | save
  | discard
  | enterEdit
  | toggle

/-- One action of the part_005 manager. -/
def pc5Step (s : PC5State) : PC5Action → PC5State
  | PC5Action.edit c => PC5State.recompute (PC5State.contentChange s c)
  | PC5Action.undo => PC5State.recompute (PC5State.undo s)
  | PC5Action.redo => PC5State.recompute (PC5State.redo s)
  | PC5Action.save => PC5State.recompute (PC5State.save s)
  | PC5Action.discard => PC5State.recompute (PC5State.discard s)
  | PC5Action.enterEdit => PC5State.recompute (PC5State.enterEdit s)
  | PC5Action.toggle => PC5State.recompute (PC5State.toggle s)

/-- A sequence of actions of the part_005 manager. -/
def pc5Run (s : PC5State) (acts : List PC5Action) : PC5State :=
  acts.foldl pc5Step s

theorem pc5Recompute_initial (s : PC5State) :
    (PC5State.recompute s).initialContent = s.initialContent := by
  unfold PC5State.recompute
  split <;> split <;> rfl

theorem pc5Step_initial (s : PC5State) (a : PC5Action) :
    (pc5Step s a).initialContent = s.initialContent := by
  cases a <;>
    simp only [pc5Step, pc5Recompute_initial, PC5State.contentChange,
      PC5State.undo, PC5State.redo, PC5State.save, PC5State.discard,
      PC5State.enterEdit, PC5State.toggle] <;>
    (try split) <;> rfl

theorem pc5Run_initial (acts : List PC5Action) :
    ∀ s : PC5State, (pc5Run s acts).initialContent = s.initialContent := by
  induction acts with
  | nil => intro s; rfl
  | cons a acts ih =>
      intro s
      show (pc5Run (pc5Step s a) acts).initialContent = _
      rw [ih, pc5Step_initial]

/-- C4 — Discard postcondition, settled against the part_005 content-state
manager (the variant that has the comparisonBase field named by the
claim): after discard() and the diff effect, editedContent, originalContent
and comparisonBase all equal initialContent, the change lists are empty,
the history is exactly [initialContent] with historyIndex 0, and editMode
is false; moreover initialContent is exactly the content loaded for the
page (no action after load ever changes it). -/
theorem discard_postcondition :
    (∀ s : PC5State,
      (PC5State.stepDiscard s).editedContent = s.initialContent ∧
      (PC5State.stepDiscard s).originalContent = s.initialContent ∧
      (PC5State.stepDiscard s).comparisonBase = s.initialContent ∧
      (PC5State.stepDiscard s).textChanges = [] ∧
      (PC5State.stepDiscard s).allChanges = [] ∧
      (PC5State.stepDiscard s).history = [s.initialContent] ∧
      (PC5State.stepDiscard s).historyIndex = 0 ∧
      (PC5State.stepDiscard s).editMode = false) ∧
    (∀ (X : List Char) (acts : List PC5Action),
      (pc5Run (PC5State.load X) acts).initialContent = X) := by
  constructor
  · intro s
    unfold PC5State.stepDiscard PC5State.recompute PC5State.discard
    simp
  · intro X acts
    rw [pc5Run_initial]
    rfl

/-- The state after load X, edit Y, edit Z in the PageContent.tsx
manager. -/
def pcScenario (X Y Z : List Char) : PCState :=
  PCState.contentChange (PCState.contentChange (PCState.load X) Y) Z

/-- C5 — Undo/redo history machine (the handlers of PageContent.tsx; the
diff effect touches only textChanges and none of the fields below): after
load X, edit Y, edit Z, one undo makes the buffer Y, a second undo makes
it X, a following redo makes it Y again; undo at historyIndex 0 and redo
at the last index are no-ops; and editing W after the undo truncates the
forward history — the Z entry is discarded — before appending W. -/
theorem undo_redo_history (X Y Z W : List Char)
    (hYX : Y ≠ X) (hZY : Z ≠ Y) (hWY : W ≠ Y) :
    (PCState.undo (pcScenario X Y Z)).editedContent = Y ∧
    (PCState.undo (pcScenario X Y Z)).historyIndex = 1 ∧
    (PCState.undo (PCState.undo (pcScenario X Y Z))).editedContent = X ∧
    (PCState.undo (PCState.undo (pcScenario X Y Z))).historyIndex = 0 ∧
    (PCState.redo (PCState.undo (PCState.undo
      (pcScenario X Y Z)))).editedContent = Y ∧
    (∀ s : PCState, s.historyIndex = 0 → PCState.undo s = s) ∧
    (∀ s : PCState, s.historyIndex = s.history.length - 1 →
      PCState.redo s = s) ∧
    (PCState.contentChange (PCState.undo (pcScenario X Y Z)) W).history
      = [X, Y, W] ∧
    (PCState.contentChange (PCState.undo (pcScenario X Y Z)) W).historyIndex
      = 2 ∧
    (PCState.contentChange (PCState.undo (pcScenario X Y Z)) W).editedContent
      = W := by
  have hs2 : pcScenario X Y Z =
      { initialContent := X, originalContent := X, editedContent := Z,
        textChanges := [], showHighlights := true, history := [X, Y, Z],
        historyIndex := 2, editMode := false } := by
    unfold pcScenario PCState.contentChange PCState.load
    rw [if_pos hYX]
    simp only [List.take, List.cons_append, List.nil_append, List.length_cons,
      List.length_nil]
    rw [if_pos hZY]
  have hu1 : PCState.undo (pcScenario X Y Z) =
      { initialContent := X, originalContent := X, editedContent := Y,
        textChanges := [], showHighlights := true, history := [X, Y, Z],
        historyIndex := 1, editMode := false } := by
    rw [hs2]
    unfold PCState.undo
    rw [if_pos (by simp)]
    rfl
  have hu2 : PCState.undo (PCState.undo (pcScenario X Y Z)) =
      { initialContent := X, originalContent := X, editedContent := X,
        textChanges := [], showHighlights := true, history := [X, Y, Z],
        historyIndex := 0, editMode := false } := by
    rw [hu1]
    unfold PCState.undo
    rw [if_pos (by simp)]
    rfl
  refine ⟨by rw [hu1], by rw [hu1], by rw [hu2], by rw [hu2], ?_, ?_, ?_,
    ?_, ?_, ?_⟩
  · rw [hu2]
    unfold PCState.redo
    rw [if_pos (by simp)]
    rfl
  · intro s hs
    unfold PCState.undo
    rw [if_neg (by omega)]
  · intro s hs
    unfold PCState.redo
    rw [if_neg (by omega)]
  · rw [hu1]
    unfold PCState.contentChange
    rw [if_pos hWY]
    rfl
  · rw [hu1]
    unfold PCState.contentChange
    rw [if_pos hWY]
    rfl
  · rw [hu1]
    unfold PCState.contentChange
    rw [if_pos hWY]

/-- Witness for C5 at a concrete scenario. -/
theorem undo_redo_history_wit :
    (PCState.undo (pcScenario "a".data "b".data "c".data)).editedContent
      = "b".data :=
  (undo_redo_history "a".data "b".data "c".data "d".data
    (by decide) (by decide) (by decide)).1

/-- Counterexample for C3: at X = "a", Y = "b", neither content-state
manager satisfies the claimed save postcondition — in the PageContent.tsx
manager save does not commit originalContent (it stays X), and in the
part_005 manager save does not reset the history (it stays [X, Y]). -/
theorem save_postcondition_cex :
    (¬ ((PCState.stepSave (PCState.stepEdit (PCState.load "a".data)
          "b".data)).originalContent = "b".data ∧
        (PCState.stepSave (PCState.stepEdit (PCState.load "a".data)
          "b".data)).editMode = false ∧
        (PCState.stepSave (PCState.stepEdit (PCState.load "a".data)
          "b".data)).history = ["b".data] ∧
        (PCState.stepSave (PCState.stepEdit (PCState.load "a".data)
          "b".data)).historyIndex = 0)) ∧
    (¬ ((PC5State.stepSave (PC5State.stepEdit (PC5State.load "a".data)
          "b".data)).originalContent = "b".data ∧
        (PC5State.stepSave (PC5State.stepEdit (PC5State.load "a".data)
          "b".data)).editMode = false ∧
        (PC5State.stepSave (PC5State.stepEdit (PC5State.load "a".data)
          "b".data)).history = ["b".data] ∧
        (PC5State.stepSave (PC5State.stepEdit (PC5State.load "a".data)
          "b".data)).historyIndex = 0)) := by
  decide

/-- C3 amended — Save postcondition as the code actually behaves: after
load(X), edit(Y) with Y ≠ X, then save(), in the PageContent.tsx manager
editMode is false and the history is reset to [Y] with historyIndex 0 but
originalContent remains X (the commit is commented out); in the part_005
manager originalContent and comparisonBase advance to Y and editMode is
false, but the history is left as [X, Y] with historyIndex 1 (save does
not reset it).  Both managers turn showHighlights on. -/
theorem save_postcondition_amended (X Y : List Char) (hYX : Y ≠ X) :
    ((PCState.stepSave (PCState.stepEdit (PCState.load X) Y)).originalContent
        = X ∧
      (PCState.stepSave (PCState.stepEdit (PCState.load X) Y)).editMode
        = false ∧
      (PCState.stepSave (PCState.stepEdit (PCState.load X) Y)).history
        = [Y] ∧
      (PCState.stepSave (PCState.stepEdit (PCState.load X) Y)).historyIndex
        = 0 ∧
      (PCState.stepSave (PCState.stepEdit (PCState.load X) Y)).showHighlights
        = true) ∧
    ((PC5State.stepSave (PC5State.stepEdit (PC5State.load X)
          Y)).originalContent = Y ∧
      (PC5State.stepSave (PC5State.stepEdit (PC5State.load X)
          Y)).comparisonBase = Y ∧
      (PC5State.stepSave (PC5State.stepEdit (PC5State.load X) Y)).editMode
        = false ∧
      (PC5State.stepSave (PC5State.stepEdit (PC5State.load X) Y)).history
        = [X, Y] ∧
      (PC5State.stepSave (PC5State.stepEdit (PC5State.load X)
          Y)).historyIndex = 1 ∧
      (PC5State.stepSave (PC5State.stepEdit (PC5State.load X)
          Y)).showHighlights = true) := by
  have hXY : X ≠ Y := Ne.symm hYX
  constructor
  · unfold PCState.stepSave PCState.stepEdit PCState.recompute
      PCState.save PCState.contentChange PCState.load
    rw [if_pos hYX]
    simp [hXY]
  · unfold PC5State.stepSave PC5State.stepEdit PC5State.recompute
      PC5State.save PC5State.contentChange PC5State.load
    rw [if_pos hYX]
    simp [hXY]

/-- Witness for the amended C3 at X = "a", Y = "b". -/
theorem save_postcondition_amended_wit :
    (PCState.stepSave (PCState.stepEdit (PCState.load "a".data)
        "b".data)).originalContent = "a".data ∧
    (PC5State.stepSave (PC5State.stepEdit (PC5State.load "a".data)
        "b".data)).history = ["a".data, "b".data] := by
  have h := save_postcondition_amended "a".data "b".data (by decide)
  exact ⟨h.1.1, h.2.2.2.2.1⟩

/-- s.replace(/c/g, rep): replace every occurrence of the character c by
the string rep. -/
def replaceChar (c : Char) (rep : List Char) (s : List Char) : List Char :=
  (s.map fun d => if d = c then rep else [d]).flatten

/-- escapeHtml of diffUtils.ts: three sequential global replaces, ampersand
first, then the angle brackets. -/
def escapeHtml (s : List Char) : List Char :=
  replaceChar '>' "&gt;".data
    (replaceChar '<' "&lt;".data
      (replaceChar '&' "&amp;".data s))

/-- The final newline replacement of convertToHighlightedHTML. -/
def newlineToBr (s : List Char) : List Char :=
  replaceChar '\n' "<br>".data s

/-- Opening tag emitted for a deletion. -/
def delOpen : List Char :=
  "<span style=\"color:#ef4444;text-decoration:line-through;background-color:#fef2f2;\">".data

/-- Opening tag emitted for an insertion. -/
def insOpen : List Char :=
  "<span style=\"background-color:#d1fae5;color:#065f46;\">".data

/-- Closing tag. -/
def spanClose : List Char := "</span>".data

/-- Stable insertion into a position-sorted list (model of the stable JS
sort comparator (a, b) => a.position - b.position). -/
def insertSorted (c : TextChange) : List TextChange → List TextChange
  | [] => [c]
  | d :: rest =>
      if c.position ≤ d.position then c :: d :: rest
      else d :: insertSorted c rest

/-- [...changes].sort((a, b) => a.position - b.position). -/
def sortByPosition (l : List TextChange) : List TextChange :=
  l.foldr insertSorted []

/-- content.substring(a, b) for a ≤ b. -/
def substringJs (s : List Char) (a b : Nat) : List Char :=
  (s.take b).drop a

/-- The span emitted for one change: deletion or insertion template around
the escaped change text. -/
def renderChange (c : TextChange) : List Char :=
  (if c.type = ChangeType.deletion then delOpen else insOpen) ++
    escapeHtml c.text ++ spanClose

/-- One iteration of the render loop of convertToHighlightedHTML: emit the
escaped plain run between the cursor and the change position when the
cursor is behind, then the change's span; the cursor advances to position
plus the change text length. -/
def convertStep (content : List Char) (acc : List Char × Nat)
    (c : TextChange) : List Char × Nat :=
  ((if acc.2 < c.position
      then acc.1 ++ escapeHtml (substringJs content acc.2 c.position)
      else acc.1) ++ renderChange c,
    c.position + c.text.length)

/-- convertToHighlightedHTML of diffUtils.ts (first variant): with no
changes (also the null/undefined case of the source) the content is
returned with newlines turned into line breaks and nothing else; otherwise
the changes are sorted by position and rendered left to right with escaped
plain runs in between, the escaped tail is appended, and newlines are
replaced last. -/
def convertToHighlightedHTML (content : List Char)
    (changes : List TextChange) : List Char :=
  if changes = [] then newlineToBr content
  else
    newlineToBr
      (((sortByPosition changes).foldl (convertStep content) ([], 0)).1 ++
        (if ((sortByPosition changes).foldl (convertStep content)
              ([], 0)).2 < content.length
          then escapeHtml (content.drop
            (((sortByPosition changes).foldl (convertStep content)
              ([], 0)).2))
          else []))

/-- The same render loop, producing the list of emitted segments instead
of their concatenation. -/
def piecesStep (content : List Char) (acc : List (List Char) × Nat)
    (c : TextChange) : List (List Char) × Nat :=
  ((if acc.2 < c.position
      then acc.1 ++ [escapeHtml (substringJs content acc.2 c.position)]
      else acc.1) ++ [renderChange c],
    c.position + c.text.length)

/-- The list of segments convertToHighlightedHTML emits for a sorted
change list, in order. -/
def pieces (content : List Char) (l : List TextChange) :
    List (List Char) :=
  (l.foldl (piecesStep content) ([], 0)).1 ++
    (if (l.foldl (piecesStep content) ([], 0)).2 < content.length
      then [escapeHtml (content.drop
        ((l.foldl (piecesStep content) ([], 0)).2))]
      else [])

/-- The single-pass character translation that the three sequential
replaces of escapeHtml amount to. -/
def escChar (c : Char) : List Char :=
  if c = '&' then "&amp;".data
  else if c = '<' then "&lt;".data
  else if c = '>' then "&gt;".data
  else [c]

theorem replaceChar_append (c : Char) (rep : List Char) (x y : List Char) :
    replaceChar c rep (x ++ y) = replaceChar c rep x ++ replaceChar c rep y := by
  simp [replaceChar, List.map_append, List.flatten_append]

theorem replaceChar_cons (c : Char) (rep : List Char) (d : Char)
    (s : List Char) :
    replaceChar c rep (d :: s)
      = (if d = c then rep else [d]) ++ replaceChar c rep s := by
  simp [replaceChar]

theorem mem_replaceChar {x c : Char} {rep s : List Char}
    (h : x ∈ replaceChar c rep s) : x ∈ rep ∨ (x ∈ s ∧ x ≠ c) := by
  induction s with
  | nil => simp [replaceChar] at h
  | cons d s ih =>
      rw [replaceChar_cons] at h
      rcases List.mem_append.mp h with h | h
      · by_cases hd : d = c
        · rw [if_pos hd] at h
          exact Or.inl h
        · rw [if_neg hd] at h
          simp at h
          subst h
          exact Or.inr ⟨by simp, hd⟩
      · rcases ih h with h | ⟨h1, h2⟩
        · exact Or.inl h
        · exact Or.inr ⟨by simp [h1], h2⟩

theorem mem_replaceChar_of_ne {x c : Char} {rep s : List Char}
    (hne : x ≠ c) (h : x ∈ s) : x ∈ replaceChar c rep s := by
  induction s with
  | nil => simp at h
  | cons d s ih =>
      rw [replaceChar_cons]
      rcases List.mem_cons.mp h with h | h
      · subst h
        rw [if_neg hne]
        simp
      · exact List.mem_append_right _ (ih h)

theorem escapeHtml_no_markup (s : List Char) :
    '<' ∉ escapeHtml s ∧ '>' ∉ escapeHtml s := by
  constructor
  · intro h
    rcases mem_replaceChar h with h | ⟨h, _⟩
    · simp [String.data] at h
    · rcases mem_replaceChar h with h | ⟨_, h2⟩
      · simp [String.data] at h
      · exact h2 rfl
  · intro h
    rcases mem_replaceChar h with h | ⟨_, h2⟩
    · simp [String.data] at h
    · exact h2 rfl

theorem escapeHtml_nil : escapeHtml [] = [] := rfl

theorem escapeHtml_cons (d : Char) (s : List Char) :
    escapeHtml (d :: s) = escChar d ++ escapeHtml s := by
  show replaceChar '>' "&gt;".data
      (replaceChar '<' "&lt;".data
        (replaceChar '&' "&amp;".data (d :: s))) = _
  rw [replaceChar_cons]
  by_cases h1 : d = '&'
  · rw [if_pos h1, replaceChar_append, replaceChar_append]
    subst h1
    rfl
  · rw [if_neg h1, replaceChar_append, replaceChar_append]
    by_cases h2 : d = '<'
    · subst h2
      rfl
    · by_cases h3 : d = '>'
      · subst h3
        rfl
      · have e1 : replaceChar '<' "&lt;".data [d] = [d] := by
          rw [replaceChar_cons]
          rw [if_neg h2]
          rfl
        have e2 : replaceChar '>' "&gt;".data [d] = [d] := by
          rw [replaceChar_cons]
          rw [if_neg h3]
          rfl
        rw [e1, e2]
        have : escChar d = [d] := by
          simp [escChar, h1, h2, h3]
        rw [this]
        rfl

/-- The three sequential replaces act as one character-by-character
translation: every &, < and > of the input is escaped, independent of
context. -/
theorem escapeHtml_eq_map (s : List Char) :
    escapeHtml s = (s.map escChar).flatten := by
  induction s with
  | nil => rfl
  | cons d s ih => rw [escapeHtml_cons, ih]; simp

theorem pieces_mem (content : List Char) :
    ∀ (l : List TextChange) (ps : List (List Char)) (n : Nat),
      (∀ p ∈ ps, (∃ s, p = escapeHtml s) ∨
        (∃ s, p = delOpen ++ escapeHtml s ++ spanClose) ∨
        (∃ s, p = insOpen ++ escapeHtml s ++ spanClose)) →
      ∀ p ∈ (l.foldl (piecesStep content) (ps, n)).1 ++
        (if (l.foldl (piecesStep content) (ps, n)).2 < content.length
          then [escapeHtml (content.drop
            ((l.foldl (piecesStep content) (ps, n)).2))]
          else []),
        (∃ s, p = escapeHtml s) ∨
        (∃ s, p = delOpen ++ escapeHtml s ++ spanClose) ∨
        (∃ s, p = insOpen ++ escapeHtml s ++ spanClose) := by
  intro l
  induction l with
  | nil =>
      intro ps n hps p hp
      simp only [List.foldl_nil] at hp
      rcases List.mem_append.mp hp with hp | hp
      · exact hps p hp
      · split at hp
        · simp at hp
          subst hp
          exact Or.inl ⟨_, rfl⟩
        · simp at hp
  | cons c l ih =>
      intro ps n hps p hp
      simp only [List.foldl_cons] at hp
      refine ih _ _ ?_ p hp
      intro q hq
      simp only [piecesStep] at hq
      rcases List.mem_append.mp hq with hq | hq
      · split at hq
        · rcases List.mem_append.mp hq with hq | hq
          · exact hps q hq
          · simp at hq
            subst hq
            exact Or.inl ⟨_, rfl⟩
        · exact hps q hq
      · simp at hq
        subst hq
        by_cases hc : c.type = ChangeType.deletion
        · exact Or.inr (Or.inl ⟨c.text, by simp [renderChange, hc]⟩)
        · exact Or.inr (Or.inr ⟨c.text, by simp [renderChange, hc]⟩)

theorem convert_pieces_fold (content : List Char) :
    ∀ (l : List TextChange) (s0 : List Char) (ps0 : List (List Char))
      (n : Nat), s0 = ps0.flatten →
      (l.foldl (convertStep content) (s0, n)).1
          = ((l.foldl (piecesStep content) (ps0, n)).1).flatten ∧
      (l.foldl (convertStep content) (s0, n)).2
          = (l.foldl (piecesStep content) (ps0, n)).2 := by
  intro l
  induction l with
  | nil => intro s0 ps0 n h; simpa using h
  | cons c l ih =>
      intro s0 ps0 n h
      simp only [List.foldl_cons]
      apply ih
      simp only [convertStep, piecesStep]
      split <;> simp [h, List.flatten_append]

/-- For a nonempty change list the rendered HTML is the newline-translated
concatenation of the emitted segments. -/
theorem convertToHighlightedHTML_as_pieces (content : List Char)
    (cs : List TextChange) (h : cs ≠ []) :
    convertToHighlightedHTML content cs
      = newlineToBr ((pieces content (sortByPosition cs)).flatten) := by
  rw [convertToHighlightedHTML, if_neg h, pieces]
  obtain ⟨h1, h2⟩ := convert_pieces_fold content (sortByPosition cs) [] [] 0 rfl
  rw [h1, h2]
  congr 1
  rw [List.flatten_append]
  congr 1
  split <;> simp

/-- C8 is corrected by this theorem together with the counterexample: for
a NONEMPTY change list, every segment convertToHighlightedHTML emits is
either an escaped plain run or a template-wrapped escaped change text;
escaping acts on every &, < and > character by character and leaves no raw
angle bracket in any escaped segment; and the final pass turns every
newline into a break tag (no newline survives). -/
theorem convertToHighlightedHTML_escapes :
    (∀ s : List Char, escapeHtml s = (s.map escChar).flatten ∧
      '<' ∉ escapeHtml s ∧ '>' ∉ escapeHtml s) ∧
    (∀ (content : List Char) (cs : List TextChange), cs ≠ [] →
      convertToHighlightedHTML content cs
        = newlineToBr ((pieces content (sortByPosition cs)).flatten)) ∧
    (∀ (content : List Char) (l : List TextChange),
      ∀ p ∈ pieces content l,
        (∃ s, p = escapeHtml s) ∨
        (∃ s, p = delOpen ++ escapeHtml s ++ spanClose) ∨
        (∃ s, p = insOpen ++ escapeHtml s ++ spanClose)) ∧
    (∀ s : List Char, '\n' ∉ newlineToBr s) := by
  refine ⟨fun s => ⟨escapeHtml_eq_map s, escapeHtml_no_markup s⟩,
    convertToHighlightedHTML_as_pieces, ?_, ?_⟩
  · intro content l p hp
    exact pieces_mem content l [] 0 (by intro q hq; simp at hq) p hp
  · intro s h
    rcases mem_replaceChar h with h | ⟨_, h2⟩
    · simp [String.data] at h
    · exact h2 rfl

/-- Witness for the amended C8 at a concrete content and change list. -/
theorem convertToHighlightedHTML_escapes_wit :
    convertToHighlightedHTML "a<".data
        [{ type := ChangeType.insertion, text := "a".data, position := 0 }]
      = newlineToBr ((pieces "a<".data (sortByPosition
        [{ type := ChangeType.insertion, text := "a".data,
           position := 0 }])).flatten) :=
  convertToHighlightedHTML_escapes.2.1 "a<".data
    [{ type := ChangeType.insertion, text := "a".data, position := 0 }]
    (by decide)

/-- Counterexample to C8 as stated: with an empty change list the renderer
returns the content verbatim, leaving the raw angle bracket unescaped,
although escapeHtml would have rewritten it. -/
theorem convertToHighlightedHTML_escape_cex :
    convertToHighlightedHTML "<".data [] = "<".data ∧
    escapeHtml "<".data ≠ "<".data := by
  constructor
  · decide
  · decide

/-- C10 — Empty-change-list export bypass: with an empty change list
convertToHighlightedHTML returns the content with every newline replaced
by a break tag and performs no HTML escaping: every non-newline character
(including raw &, < and >) passes through verbatim; unlike the
non-empty-changes path, which escapes (final conjunct: a concrete
insertion forces the same raw < of the content through escapeHtml). -/
theorem convertToHighlightedHTML_empty_bypass :
    (∀ content : List Char,
      convertToHighlightedHTML content [] = newlineToBr content) ∧
    (∀ (content : List Char) (c : Char), c ∈ content → c ≠ '\n' →
      c ∈ convertToHighlightedHTML content []) ∧
    convertToHighlightedHTML "a<b&c>d\ne".data []
      = "a<b&c>d<br>e".data ∧
    convertToHighlightedHTML "a<".data
        [{ type := ChangeType.insertion, text := "a".data, position := 0 }]
      = insOpen ++ "a".data ++ spanClose ++ "&lt;".data := by
  refine ⟨fun content => by rw [convertToHighlightedHTML, if_pos rfl],
    ?_, by decide, by decide⟩
  intro content c hc hne
  rw [convertToHighlightedHTML, if_pos rfl]
  exact mem_replaceChar_of_ne hne hc

/-- Witness for C10: the raw angle bracket passes through the empty-change
path verbatim. -/
theorem convertToHighlightedHTML_empty_bypass_wit :
    '<' ∈ convertToHighlightedHTML "<".data [] :=
  convertToHighlightedHTML_empty_bypass.2.1 "<".data '<'
    (by decide) (by decide)

/-- ASCII case folding modelling the canonicalisation of the regex i
flag: an upper-case letter folds to the code point of its lower-case
form, every other character folds to itself. -/
def foldCode (c : Char) : Nat :=
  if 65 ≤ c.toNat ∧ c.toNat ≤ 90 then c.toNat + 32 else c.toNat

/-- Case-insensitive test that the literal query is a prefix of the
text. -/
def ciStarts : List Char → List Char → Bool
  | [], _ => true
  | _ :: _, [] => false
  | a :: as, b :: bs => foldCode a == foldCode b && ciStarts as bs

/-- The match scan of contentToAnalyze.match(queryRegex) in Analyze.tsx,
where queryRegex is the query with every regex metacharacter escaped,
compiled with the flags "gi": the escaped pattern denotes the literal
query, so the global scan counts non-overlapping case-insensitive
occurrences left to right, advancing past each match (and by one position
past an empty match, as the regex engine bumps lastIndex).  Fuel makes the
recursion structural; text.length + 1 is always enough. -/
def countOccurrencesAux : Nat → List Char → List Char → Nat
  | 0, _, _ => 0
  | _ + 1, q, [] => if q = [] then 1 else 0
  | fuel + 1, q, c :: rest =>
      if ciStarts q (c :: rest) then
        1 + countOccurrencesAux fuel q (rest.drop (q.length - 1))
      else countOccurrencesAux fuel q rest

/-- The occurrence count of a query in the document text (Analyze.tsx:
(contentToAnalyze.match(queryRegex) || []).length). -/
def countOccurrences (text q : List Char) : Nat :=
  countOccurrencesAux (text.length + 1) q text

theorem countOccurrencesAux_fuel {fuel fuel' : Nat} {q text : List Char}
    (h : text.length + 1 ≤ fuel) (h' : text.length + 1 ≤ fuel') :
    countOccurrencesAux fuel q text = countOccurrencesAux fuel' q text := by
  induction fuel generalizing fuel' text with
  | zero => omega
  | succ fuel ih =>
      cases fuel' with
      | zero => omega
      | succ n =>
          cases text with
          | nil => rfl
          | cons c rest =>
              simp only [countOccurrencesAux]
              have hd : (rest.drop (q.length - 1)).length ≤ rest.length := by
                simp [List.length_drop]
              simp only [List.length_cons] at h h'
              rw [ih (by omega) (by omega : rest.length + 1 ≤ n),
                ih (by omega)
                  (by omega : (rest.drop (q.length - 1)).length + 1 ≤ n)]

theorem countOccurrences_nil (q : List Char) :
    countOccurrences [] q = if q = [] then 1 else 0 := rfl

theorem countOccurrences_cons (q : List Char) (c : Char)
    (rest : List Char) :
    countOccurrences (c :: rest) q =
      if ciStarts q (c :: rest) then
        1 + countOccurrences (rest.drop (q.length - 1)) q
      else countOccurrences rest q := by
  have e1 : countOccurrencesAux (rest.length + 1) q (rest.drop (q.length - 1))
      = countOccurrences (rest.drop (q.length - 1)) q := by
    apply countOccurrencesAux_fuel
    · simp only [List.length_drop]
      omega
    · omega
  have e2 : countOccurrencesAux (rest.length + 1) q rest
      = countOccurrences rest q := by
    apply countOccurrencesAux_fuel <;> omega
  show countOccurrencesAux ((c :: rest).length + 1) q (c :: rest) = _
  simp only [List.length_cons, countOccurrencesAux]
  rw [e1, e2]

theorem ciStarts_iff (q : List Char) :
    ∀ t : List Char,
      ciStarts q t = true ↔ (q.map foldCode) <+: (t.map foldCode) := by
  induction q with
  | nil => intro t; simp [ciStarts, List.nil_prefix]
  | cons a as ih =>
      intro t
      cases t with
      | nil => simp [ciStarts]
      | cons b bs =>
          simp only [ciStarts, List.map_cons, Bool.and_eq_true, beq_iff_eq]
          rw [ih bs, List.cons_prefix_iff]

/-- Absence characterisation: for a nonempty query the count is zero
exactly when the case-folded query is not an infix of the case-folded
text. -/
theorem countOccurrences_eq_zero_iff (q : List Char) (hq : q ≠ []) :
    ∀ text : List Char,
      countOccurrences text q = 0 ↔
        ¬ (q.map foldCode) <:+: (text.map foldCode) := by
  intro text
  induction text with
  | nil =>
      rw [countOccurrences_nil, if_neg hq]
      simp only [List.map_nil]
      refine ⟨fun _ hinf => ?_, fun _ => trivial⟩
      have hmap : q.map foldCode = [] := List.sublist_nil.mp hinf.sublist
      cases q with
      | nil => exact hq rfl
      | cons x xs => simp at hmap
  | cons c rest ih =>
      rw [countOccurrences_cons]
      by_cases hstart : ciStarts q (c :: rest) = true
      · rw [if_pos hstart]
        constructor
        · intro h
          omega
        · intro hninf
          exfalso
          apply hninf
          exact ((ciStarts_iff q (c :: rest)).mp hstart).isInfix
      · rw [if_neg hstart]
        rw [ih]
        simp only [List.map_cons]
        rw [List.infix_cons_iff]
        constructor
        · intro hn hor
          rcases hor with hor | hor
          · rw [← List.map_cons] at hor
            exact hstart ((ciStarts_iff q (c :: rest)).mpr hor)
          · exact hn hor
        · intro hn hinf
          exact hn (Or.inr hinf)

theorem ciStarts_congr :
    ∀ {q q' t t' : List Char},
      List.Forall₂ (fun a b => foldCode a = foldCode b) q q' →
      List.Forall₂ (fun a b => foldCode a = foldCode b) t t' →
      ciStarts q t = ciStarts q' t' := by
  intro q q' t t' hq
  induction hq generalizing t t' with
  | nil => intro _; rfl
  | cons hab hrest ih =>
      intro ht
      cases ht with
      | nil => rfl
      | cons hcd ht' =>
          simp only [ciStarts]
          rw [hab, hcd, ih ht']

/-- The count is invariant under changing the case of the text or of the
query: the match really is case-insensitive. -/
theorem countOccurrences_ci :
    ∀ (fuel : Nat) (text text' q q' : List Char),
      text.length + 1 ≤ fuel →
      List.Forall₂ (fun a b => foldCode a = foldCode b) text text' →
      List.Forall₂ (fun a b => foldCode a = foldCode b) q q' →
      countOccurrences text q = countOccurrences text' q' := by
  intro fuel
  induction fuel with
  | zero => intro text text' q q' h; omega
  | succ fuel ih =>
      intro text text' q q' h htext hqq
      cases htext with
      | nil =>
          rw [countOccurrences_nil, countOccurrences_nil]
          cases hqq with
          | nil => rfl
          | cons hab hrest =>
              rw [if_neg (by simp), if_neg (by simp)]
      | cons hcd hrest =>
          rw [countOccurrences_cons, countOccurrences_cons]
          rw [ciStarts_congr hqq (List.Forall₂.cons hcd hrest)]
          split
          · rw [List.Forall₂.length_eq hqq]
            congr 1
            apply ih _ _ _ _ ?_ (List.forall₂_drop _ hrest) hqq
            simp only [List.length_cons] at h
            simp only [List.length_drop]
            omega
          · apply ih _ _ _ _ ?_ hrest hqq
            simp only [List.length_cons] at h
            omega

/-- C9 — Query-occurrence counting: the count computed by the Analyze.tsx
queries fetch equals the number of case-insensitive non-overlapping
matches of the query taken as a literal substring (the code escapes every
regex metacharacter first, so the pattern is the literal query): the count
is zero exactly when the case-folded query does not occur in the
case-folded text (so an absent query yields 0), the count is invariant
under case changes of either side, matches never overlap (a query "aa"
occurs once in "aaa"), and an escaped metacharacter matches only itself
("a.c" occurs in "a.c" but not in "abc"). -/
theorem countOccurrences_spec :
    (∀ (text q : List Char), q ≠ [] →
      (countOccurrences text q = 0 ↔
        ¬ (q.map foldCode) <:+: (text.map foldCode))) ∧
    (∀ (text text' q q' : List Char),
      List.Forall₂ (fun a b => foldCode a = foldCode b) text text' →
      List.Forall₂ (fun a b => foldCode a = foldCode b) q q' →
      countOccurrences text q = countOccurrences text' q') ∧
    countOccurrences "aaa".data "aa".data = 1 ∧
    countOccurrences "Hello BRAVE world".data "brave".data = 1 ∧
    countOccurrences "hello brave world".data "brave".data = 1 ∧
    countOccurrences "hello world".data "brave".data = 0 ∧
    countOccurrences "a.c".data "a.c".data = 1 ∧
    countOccurrences "abc".data "a.c".data = 0 := by
  refine ⟨fun text q hq => countOccurrences_eq_zero_iff q hq text,
    fun text text' q q' h1 h2 =>
      countOccurrences_ci (text.length + 1) text text' q q'
        (Nat.le_refl _) h1 h2,
    by decide, by decide, by decide, by decide, by decide, by decide⟩

/-- Witness for C9: the absence characterisation instantiated at a
concrete text and query. -/
theorem countOccurrences_spec_wit :
    countOccurrences "hello".data "x".data = 0 ↔
      ¬ ("x".data.map foldCode) <:+: ("hello".data.map foldCode) :=
  countOccurrences_spec.1 "hello".data "x".data (by decide)

end GSC

